import Mathlib

/-
Verification development for the vanilla-shell language pipeline
(lexer src/parser/lexer.ts, parser src/parser/parser.ts, evaluator
src/shell/shell.ts).  Each definition is a shallow embedding of the
TypeScript function named in its doc comment.  JavaScript strings are
modelled as List Char; an out-of-range index access (which yields the
empty string in JS) is modelled with Option Char or by the list running
out.  JS Map objects are modelled as insertion-ordered association lists.
-/

namespace VSh

/-- JS Map.get: first binding of the key, if any. -/
def mget (m : List (String × String)) (k : String) : Option String :=
  match m with
  | [] => none
  | (k', v) :: rest => if k' = k then some v else mget rest k

/-- JS Map.set: replace the binding in place, else append (insertion order kept). -/
def mset (m : List (String × String)) (k v : String) : List (String × String) :=
  match m with
  | [] => [(k, v)]
  | (k', v') :: rest => if k' = k then (k, v) :: rest else (k', v') :: mset rest k v

/-- JS Map.delete: remove the binding of the key. -/
def mdel (m : List (String × String)) (k : String) : List (String × String) :=
  match m with
  | [] => []
  | (k', v') :: rest => if k' = k then rest else (k', v') :: mdel rest k

/-! ## Lexer (src/parser/lexer.ts)

The TS lexer is a class over (input, pos, line, column); `advance()`
returns `input[pos++] || ''` and updates line/column.  Each `while` loop
of the source is embedded as a pure function of the characters remaining
after the current position, returning how many `advance()` calls the
loop performs (the source may call `advance()` once past the end of the
input, in which case pos grows past the length; the count records that). -/

inductive TokType where
  | word | op | newline | eof | ioNumber
deriving DecidableEq, Repr

structure Pos where
  offset : Nat
  line : Nat
  column : Nat
deriving DecidableEq, Repr

structure Token where
  type : TokType
  value : String
  position : Pos
deriving DecidableEq, Repr

structure LexSt where
  input : List Char
  pos : Nat
  line : Nat
  column : Nat
deriving Repr

/-- Lexer constructor: pos 0, line 1, column 1. -/
def lexInit (s : String) : LexSt := ⟨s.data, 0, 1, 1⟩

/-- The characters after the current position. -/
def remIn (st : LexSt) : List Char := st.input.drop st.pos

/-- Lexer.advance(): `input[pos++] || ''`, with line/column bookkeeping
(a newline bumps the line, anything else - including reading past the
end - bumps the column). -/
def adv1 (st : LexSt) : LexSt :=
  match st.input.get? st.pos with
  | some '\n' => ⟨st.input, st.pos + 1, st.line + 1, 1⟩
  | _ => ⟨st.input, st.pos + 1, st.line, st.column + 1⟩

/-- k successive Lexer.advance() calls. -/
def advN (st : LexSt) : Nat → LexSt
  | 0 => st
  | k + 1 => advN (adv1 st) k

/-- Lexer.currentPosition(). -/
def curPos (st : LexSt) : Pos := ⟨st.pos, st.line, st.column⟩

/-- Loop of Lexer.skipWhitespace(): number of advances over blanks and
backslash-newline line continuations. -/
def skipWsN : List Char → Nat
  | ' ' :: r => 1 + skipWsN r
  | '\t' :: r => 1 + skipWsN r
  | '\\' :: '\n' :: r => 2 + skipWsN r
  | _ => 0

/-- Loop of Lexer.skipComment(): if at '#', advance to (not past) the
next newline. -/
def skipCommentN (l : List Char) : Nat :=
  match l with
  | '#' :: r => 1 + commentTailN r
  | _ => 0
where
  commentTailN : List Char → Nat
    | [] => 0
    | '\n' :: _ => 0
    | _ :: r => 1 + commentTailN r

/-- The OPERATORS table, longest-match-first as in the source. -/
def OPERATORS : List (List Char) :=
  [['&', '&'], ['|', '|'], [';', ';'], ['<', '<', '-'], ['<', '<'],
   ['>', '>'], ['<', '&'], ['>', '&'], ['<', '>'], ['>', '|'],
   ['|'], ['&'], [';'], ['<'], ['>'], ['('], [')'], ['{'], ['}'], ['\n']]

/-- Lexer.readOperator()'s matching test: every character of op equals
the character peeked at that offset (peek past the end is '' and never
equals a real character). -/
def opMatches (l : List Char) (op : List Char) : Bool :=
  l.take op.length = op

/-- Lexer.readOperator()'s scan over OPERATORS: the first operator whose
characters all match. -/
def opFind (l : List Char) : Option (List Char) :=
  OPERATORS.find? (opMatches l)

/-- Loop of Lexer.readSingleQuotedString() after the opening quote:
append every advanced character, stop after a quote. -/
def rsqN : List Char → List Char × Nat
  | [] => ([], 0)
  | c :: r =>
    if c = '\'' then ([c], 1)
    else
      let (v, n) := rsqN r
      (c :: v, n + 1)

/-- Loop of Lexer.readDoubleQuotedString() after the opening quote:
a backslash keeps the pair of characters, a quote is kept and stops. -/
def rdqN : List Char → List Char × Nat
  | [] => ([], 0)
  | '\\' :: r =>
    match r with
    | [] => (['\\'], 1)
    | c :: r' =>
      let (v, n) := rdqN r'
      ('\\' :: c :: v, n + 2)
  | '"' :: _ => (['"'], 1)
  | c :: r =>
    let (v, n) := rdqN r
    (c :: v, n + 1)

/-- Arithmetic loop of Lexer.readParameter() ($(( ... ))): track paren
depth, append every advanced character, stop at depth 0. -/
def lexArithN (depth : Nat) : List Char → List Char × Nat
  | [] => ([], 0)
  | c :: r =>
    if depth = 0 then ([], 0)
    else
      let d' := if c = '(' then depth + 1 else if c = ')' then depth - 1 else depth
      let (v, n) := lexArithN d' r
      (c :: v, n + 1)

/-- Command-substitution loop of Lexer.readParameter() ($( ... )): like
the arithmetic loop but quoted regions are read through the quote
readers.  The loop re-enters on a suffix of the tail, so it carries a
fuel argument; every iteration consumes at least the peeked character,
so l.length + 1 iterations always complete the scan and the callers
pass that much fuel. -/
def lexCsubN (fuel : Nat) (depth : Nat) (l : List Char) : List Char × Nat :=
  match fuel with
  | 0 => ([], 0)
  | fuel + 1 =>
    if depth = 0 then ([], 0)
    else
      match l with
      | [] => ([], 0)
      | c :: r =>
        let d' := if c = '(' then depth + 1 else if c = ')' then depth - 1 else depth
        if c = '\'' then
          let (v1, n1) := rsqN r
          let (v2, n2) := lexCsubN fuel depth (r.drop n1)
          (c :: (v1 ++ v2), 1 + n1 + n2)
        else if c = '"' then
          let (v1, n1) := rdqN r
          let (v2, n2) := lexCsubN fuel depth (r.drop n1)
          (c :: (v1 ++ v2), 1 + n1 + n2)
        else
          let (v, n) := lexCsubN fuel d' r
          (c :: v, n + 1)

/-- Parameter-expansion loop of Lexer.readParameter() (${ ... }): read
to the matching brace, then take the brace itself if present. -/
def lexBraceN : List Char → List Char × Nat
  | [] => ([], 0)
  | '}' :: _ => (['}'], 1)
  | c :: r =>
    let (v, n) := lexBraceN r
    (c :: v, n + 1)

/-- The special-parameter characters of readParameter. -/
def specialChars : List Char :=
  ['@', '*', '#', '?', '-', '$', '!', '0', '1', '2', '3', '4', '5', '6', '7', '8', '9']

/-- Character class [a-zA-Z0-9_]. -/
def isWordChar (c : Char) : Bool :=
  ('a' ≤ c ∧ c ≤ 'z') ∨ ('A' ≤ c ∧ c ≤ 'Z') ∨ ('0' ≤ c ∧ c ≤ '9') ∨ c = '_'

/-- Name loop of Lexer.readParameter(): advance over [a-zA-Z0-9_]. -/
def lexNameN : List Char → List Char × Nat
  | [] => ([], 0)
  | c :: r =>
    if isWordChar c then
      let (v, n) := lexNameN r
      (c :: v, n + 1)
    else ([], 0)

/-- Lexer.readParameter() after the initial '$' advance: the pair is
(characters appended after the '$', number of advance() calls).  On an
input that ends right after the '$', JS evaluates
`special.includes(this.peek())` with peek() = '' - String.includes('')
is true - and performs one advance() past the end of the input, so the
count is 1 though nothing is appended. -/
def lexParamTailN (l : List Char) : List Char × Nat :=
  match l with
  | [] => ([], 1)
  | '(' :: r =>
    match r with
    | '(' :: r2 =>
      let (v, n) := lexArithN 2 r2
      ('(' :: '(' :: v, 2 + n)
    | _ =>
      let (v, n) := lexCsubN (r.length + 1) 1 r
      ('(' :: v, 1 + n)
  | '{' :: r =>
    let (v, n) := lexBraceN r
    ('{' :: v, 1 + n)
  | c :: r =>
    if specialChars.contains c then ([c], 1)
    else lexNameN (c :: r)

/-- Loop of Lexer.readBackquote() after the opening backtick: number of
advance() calls up to and including the closing backtick (a backslash
skips a pair). -/
def bqTailN : List Char → List Char × Nat
  | [] => ([], 0)
  | '`' :: _ => (['`'], 1)
  | '\\' :: r =>
    match r with
    | [] => (['\\'], 1)
    | c :: r' =>
      let (v, n) := bqTailN r'
      ('\\' :: c :: v, n + 2)
  | c :: r =>
    let (v, n) := bqTailN r
    (c :: v, n + 1)

/-- The metacharacter class of Lexer.isMetacharacter. -/
def isMeta (c : Char) : Bool :=
  c ∈ ['|', '&', ';', '<', '>', '(', ')', '$', '`', '\\', '"', '\'', ' ', '\t', '\n']

/-- Loop of Lexer.readWord(): accumulate characters until an unquoted
metacharacter, dispatching quotes, backslashes, '$' and backquotes to
their readers.  Returns (word value, number of advance() calls).  Each
iteration consumes at least the peeked character (every recursive call
scans a suffix of the tail), so the fuel l.length + 1 that readWordW
passes always completes the loop. -/
def readWordN (fuel : Nat) (l : List Char) : List Char × Nat :=
  match fuel with
  | 0 => ([], 0)
  | fuel + 1 =>
    match l with
    | [] => ([], 0)
    | c :: r =>
      if c = '\'' then
        let p1 := rsqN r
        let p2 := readWordN fuel (r.drop p1.2)
        (c :: (p1.1 ++ p2.1), 1 + p1.2 + p2.2)
      else if c = '"' then
        let p1 := rdqN r
        let p2 := readWordN fuel (r.drop p1.2)
        (c :: (p1.1 ++ p2.1), 1 + p1.2 + p2.2)
      else if c = '\\' then
        match r with
        | [] => ([c], 1)
        | '\n' :: r' =>
          let p := readWordN fuel r'
          (c :: p.1, p.2 + 2)
        | d :: r' =>
          let p := readWordN fuel r'
          (c :: d :: p.1, p.2 + 2)
      else if c = '$' then
        let p1 := lexParamTailN r
        let p2 := readWordN fuel (r.drop p1.2)
        (c :: (p1.1 ++ p2.1), 1 + p1.2 + p2.2)
      else if c = '`' then
        let p1 := bqTailN r
        let p2 := readWordN fuel (r.drop p1.2)
        (c :: (p1.1 ++ p2.1), 1 + p1.2 + p2.2)
      else if isMeta c then ([], 0)
      else
        let p := readWordN fuel r
        (c :: p.1, p.2 + 1)

/-- Lexer.readWord()'s loop with the fuel it needs. -/
def readWordW (l : List Char) : List Char × Nat :=
  readWordN (l.length + 1) l

/-- The dispatch part of Lexer.nextToken(), after the whitespace and
comment skipping: EOF test, io-number lookahead, operator match, word. -/
def ntCore (st : LexSt) : Token × LexSt :=
  if st.input.length ≤ st.pos then
    (⟨.eof, "", curPos st⟩, st)
  else
    match remIn st with
    | c :: next :: _ =>
      if ('0' ≤ c ∧ c ≤ '9') ∧ (next = '<' ∨ next = '>') then
        (⟨.ioNumber, String.mk [c], curPos st⟩, advN st 1)
      else
        match opFind (remIn st) with
        | some op =>
          if op = ['\n'] then (⟨.newline, "\n", curPos st⟩, advN st op.length)
          else (⟨.op, String.mk op, curPos st⟩, advN st op.length)
        | none =>
          let p := readWordW (remIn st)
          (⟨.word, String.mk p.1, curPos st⟩, advN st p.2)
    | l =>
      match opFind l with
      | some op =>
        if op = ['\n'] then (⟨.newline, "\n", curPos st⟩, advN st op.length)
        else (⟨.op, String.mk op, curPos st⟩, advN st op.length)
      | none =>
        let p := readWordW l
        (⟨.word, String.mk p.1, curPos st⟩, advN st p.2)

/-- Lexer.nextToken(): skip whitespace, a comment, whitespace again,
then dispatch. -/
def nextToken (st0 : LexSt) : Token × LexSt :=
  let st1 := advN st0 (skipWsN (remIn st0))
  let st2 := advN st1 (skipCommentN (remIn st1))
  let st := advN st2 (skipWsN (remIn st2))
  ntCore st

/-- Lexer.tokenize(): collect tokens until (and including) EOF.  The
fuel bounds the do-while; the theorems show input.length + 2 always
suffices. -/
def tokenizeF : Nat → LexSt → Option (List Token)
  | 0, _ => none
  | fuel + 1, st =>
    let p := nextToken st
    if p.1.type = .eof then some [p.1]
    else
      match tokenizeF fuel p.2 with
      | some ts => some (p.1 :: ts)
      | none => none

/-- Tokenization of a whole string with the fuel the theorems justify. -/
def tokenizeJS (s : String) : Option (List Token) :=
  tokenizeF (s.data.length + 2) (lexInit s)

/-- RESERVED_WORDS and isReservedWord of src/parser/lexer.ts. -/
def isReservedWord (w : String) : Bool :=
  w ∈ ["if", "then", "else", "elif", "fi", "do", "done", "case", "esac",
       "while", "until", "for", "in", "!", "\x7b", "\x7d"]

/-! ## AST (src/shell/ast.ts) -/

/-- ParameterOp of ast.ts. -/
inductive POp where
  | none | minus | equal | qmark | plus | leadingHash
  | percent | dpercent | hash | dhash
deriving DecidableEq, Repr

/-- IoRedirectOp of ast.ts. -/
inductive ROp where
  | less | great | clobber | dgreat | lessAnd | greatAnd | lessGreat
  | dless | dlessDash
deriving DecidableEq, Repr

/-- AndOrType of ast.ts: And is "&&", Or is "||". -/
inductive AndOrTy where
  | and | or
deriving DecidableEq, Repr

mutual

/-- Word of ast.ts.  str carries (value, singleQuoted, splitFields);
cmdSub is WordCommand with its optional parsed program (the parser of
this repository always leaves it absent) and backQuoted flag. -/
inductive WordAst where
  | str : String → Bool → Bool → WordAst
  | param : String → POp → Bool → Option WordAst → WordAst
  | cmdSub : Option ProgramAst → Bool → WordAst
  | arith : WordAst → WordAst
  | list : List WordAst → Bool → WordAst

/-- IoRedirect of ast.ts: (ioNumber, op, name word). -/
inductive RedirAst where
  | mk : Int → ROp → WordAst → RedirAst

/-- Assignment of ast.ts: (name, value word). -/
inductive AssignAst where
  | mk : String → WordAst → AssignAst

/-- Command of ast.ts (tagged variants). -/
inductive CmdAst where
  | simple : Option WordAst → List WordAst → List RedirAst → List AssignAst → CmdAst
  | braceGroup : List CmdListAst → CmdAst
  | subshell : List CmdListAst → CmdAst
  | ifClause : List CmdListAst → List CmdListAst → Option CmdAst → CmdAst
  | forClause : String → Bool → List WordAst → List CmdListAst → CmdAst
  | loopClause : Bool → List CmdListAst → List CmdListAst → CmdAst
  | caseClause : WordAst → List CaseItemAst → CmdAst
  | funcDef : String → CmdAst → CmdAst

/-- CaseItem of ast.ts. -/
inductive CaseItemAst where
  | mk : List WordAst → List CmdListAst → CaseItemAst

/-- Pipeline of ast.ts: (negation, commands). -/
inductive PipelineAst where
  | mk : Bool → List CmdAst → PipelineAst

/-- AndOrList of ast.ts: (first, rest). -/
inductive AndOrAst where
  | mk : PipelineAst → List (AndOrTy × PipelineAst) → AndOrAst

/-- CommandList of ast.ts: (andOrList, async flag). -/
inductive CmdListAst where
  | mk : AndOrAst → Bool → CmdListAst

/-- Program of ast.ts. -/
inductive ProgramAst where
  | mk : List CmdListAst → ProgramAst

end

/-- Accessors for the mutual structures. -/
def PipelineAst.negation : PipelineAst → Bool
  | .mk n _ => n

def PipelineAst.commands : PipelineAst → List CmdAst
  | .mk _ c => c

def AndOrAst.first : AndOrAst → PipelineAst
  | .mk f _ => f

def AndOrAst.rest : AndOrAst → List (AndOrTy × PipelineAst)
  | .mk _ r => r

def CmdListAst.andOrList : CmdListAst → AndOrAst
  | .mk a _ => a

def CmdListAst.async : CmdListAst → Bool
  | .mk _ b => b

def ProgramAst.commands : ProgramAst → List CmdListAst
  | .mk c => c

def AssignAst.name : AssignAst → String
  | .mk n _ => n

def AssignAst.value : AssignAst → WordAst
  | .mk _ v => v

def RedirAst.ioNumber : RedirAst → Int
  | .mk n _ _ => n

def RedirAst.op : RedirAst → ROp
  | .mk _ o _ => o

def RedirAst.nameWord : RedirAst → WordAst
  | .mk _ _ w => w

/-- createWordString of ast.ts: singleQuoted defaults false, splitFields
always false. -/
def createWordString (v : String) (sq : Bool := false) : WordAst :=
  .str v sq false

/-! ## Word reconstruction (Parser.parseWordValue and helpers,
src/parser/parser.ts lines 359-586)

These are pure functions over the raw characters of a Word token.  As in
the lexer embedding, each index-based scanning loop is a function of the
characters remaining after the current index, returning how many indices
it consumed. -/

/-- Scan of the single-quote branch of parseComplexWord (lines 384-394):
characters up to the closing quote, and the consumed count including the
closing quote (the source does i++ past it even when the quote is
missing at end of input). -/
def sqScanP : List Char → List Char × Nat
  | [] => ([], 1)
  | c :: r =>
    if c = '\'' then ([], 1)
    else
      let (v, n) := sqScanP r
      (c :: v, n + 1)

/-- Arithmetic body loop of parseParameterFromString (lines 449-462):
depth starts at 2 after "$((" ; a character is appended only while the
updated depth is positive, so the ')' that brings the depth from 2 to 1
IS appended and the final ')' is not. -/
def pArithN (depth : Nat) (l : List Char) : List Char × Nat :=
  if depth = 0 then ([], 0)
  else
    match l with
    | [] => ([], 0)
    | c :: r =>
      let d' := if c = '(' then depth + 1 else if c = ')' then depth - 1 else depth
      let (v, n) := pArithN d' r
      ((if 0 < d' then c :: v else v), n + 1)

/-- Command-substitution body loop of parseParameterFromString (lines
464-477): same scan with depth starting at 1; the body is discarded by
the caller. -/
def pCsubN (depth : Nat) (l : List Char) : List Char × Nat :=
  if depth = 0 then ([], 0)
  else
    match l with
    | [] => ([], 0)
    | c :: r =>
      let d' := if c = '(' then depth + 1 else if c = ')' then depth - 1 else depth
      let (v, n) := pCsubN d' r
      ((if 0 < d' then c :: v else v), n + 1)

/-- Name scan [a-zA-Z0-9_]* used at lines 496-498 and 549-552. -/
def nameScanP : List Char → List Char × Nat
  | [] => ([], 0)
  | c :: r =>
    if isWordChar c then
      let (v, n) := nameScanP r
      (c :: v, n + 1)
    else ([], 0)

/-- Argument scan of the ${...} reader (lines 523-526): characters up to
(not including) the closing brace. -/
def argScanP : List Char → List Char × Nat
  | [] => ([], 0)
  | c :: r =>
    if c = '}' then ([], 0)
    else
      let (v, n) := argScanP r
      (c :: v, n + 1)

/-- The ${...} reader of parseParameterFromString (lines 479-538),
applied to the characters after the opening brace.  Note the JS quirk at
line 488-489: when the '#' is the last character of the raw value,
value[i+1] is undefined, "undefined ≠ '}'" holds and the regex test
coerces undefined to the string "undefined", whose first letter matches
[a-zA-Z_], so the LeadingHash branch is taken. -/
def pBraceTail (l : List Char) : WordAst × Nat :=
  -- leading '#' (length operator) detection, lines 488-493
  let (op0, l1, c1) :=
    match l with
    | '#' :: r =>
      match r with
      | [] => (POp.leadingHash, ([] : List Char), 1)
      | d :: _ =>
        if d = '}' then (POp.none, '#' :: r, 0)
        else if isWordChar d then (POp.leadingHash, r, 1)
        else (POp.none, '#' :: r, 0)
    | _ => (POp.none, l, 0)
  -- name, lines 496-498
  let (nm, c2) := nameScanP l1
  let l2 := l1.drop c2
  -- operator section, lines 501-531
  match l2 with
  | [] =>
    (.param (String.mk nm) op0 false none, c1 + c2)
  | e :: r2 =>
    if e = '}' then
      (.param (String.mk nm) op0 false none, c1 + c2 + 1)
    else
      let (colon, l3, c3) :=
        if e = ':' then (true, r2, 1) else (false, e :: r2, 0)
      match l3 with
      | [] =>
        (.param (String.mk nm) op0 colon none, c1 + c2 + c3)
      | d :: r3 =>
        -- the operator switch, lines 507-520 (no default: an unknown
        -- character leaves the op unchanged and is not consumed)
        let (op1, l4, c4) :=
          if d = '-' then (POp.minus, r3, 1)
          else if d = '=' then (POp.equal, r3, 1)
          else if d = '?' then (POp.qmark, r3, 1)
          else if d = '+' then (POp.plus, r3, 1)
          else if d = '%' then
            match r3 with
            | '%' :: r4 => (POp.dpercent, r4, 2)
            | _ => (POp.percent, r3, 1)
          else if d = '#' then
            match r3 with
            | '#' :: r4 => (POp.dhash, r4, 2)
            | _ => (POp.hash, r3, 1)
          else (op0, d :: r3, 0)
        -- argument up to '}', lines 523-529 (empty means no arg)
        let (argChars, c5) := argScanP l4
        let l5 := l4.drop c5
        let arg : Option WordAst :=
          if argChars = [] then none else some (createWordString (String.mk argChars))
        -- closing brace, line 533
        let c6 := match l5 with | '}' :: _ => 1 | _ => 0
        (.param (String.mk nm) op1 colon arg, c1 + c2 + c3 + c4 + c5 + c6)

/-- parseParameterFromString after the '$' (lines 438-563), applied to
the characters after the '$'; returns (word, consumed after the '$'). -/
def pParamTail (l : List Char) : WordAst × Nat :=
  match l with
  | [] => (createWordString "$", 0)
  | '(' :: r =>
    match r with
    | '(' :: r2 =>
      let (body, n) := pArithN 2 r2
      (.arith (createWordString (String.mk body)), 2 + n)
    | _ =>
      let (_, n) := pCsubN 1 r
      (.cmdSub none false, 1 + n)
  | '{' :: r =>
    let (w, n) := pBraceTail r
    (w, 1 + n)
  | c :: r =>
    if specialChars.contains c then
      (.param (String.mk [c]) .none false none, 1)
    else
      let (nm, n) := nameScanP (c :: r)
      if nm = [] then (createWordString "$", 0)
      else (.param (String.mk nm) .none false none, n)

/-- Parser.parseParameterFromString(value, start): the source signature,
returning the word and the end index. -/
def parseParameterFromString (value : List Char) (start : Nat) : WordAst × Nat :=
  let (w, k) := pParamTail (value.drop (start + 1))
  (w, start + 1 + k)

/-- Backquote scan of parseBackquoteFromString (lines 565-580): consumed
count after the opening backtick, including the closing backtick when
present; a backslash skips the following character. -/
def bqScanP : List Char → Nat
  | [] => 0
  | '`' :: _ => 1
  | '\\' :: r =>
    match r with
    | [] => 1
    | _ :: r' => 2 + bqScanP r'
  | _ :: r => 1 + bqScanP r

/-- Parser.parseBackquoteFromString(value, start): the body text is
scanned and discarded; the word is always a Command word with no
program and backQuoted = true. -/
def parseBackquoteFromString (value : List Char) (start : Nat) : WordAst × Nat :=
  (.cmdSub none true, start + 1 + bqScanP (value.drop (start + 1)))

/-- Loop of Parser.parseComplexWord (lines 368-436) over the remaining
characters, carrying the double-quote flag, the pending String chunk and
the children so far (flushCurrent pushes the pending chunk when it is
nonempty).  Each iteration consumes at least one character (recursive
calls scan a suffix of the tail), so the fuel l.length + 1 passed by
parseComplexWord always completes the scan. -/
def pcwLoop (fuel : Nat) (l : List Char) (inDQ : Bool) (cur : List Char)
    (acc : List WordAst) : List WordAst :=
  let flush : List WordAst := if cur = [] then acc else acc ++ [createWordString (String.mk cur)]
  match fuel with
  | 0 => flush
  | fuel + 1 =>
    match l with
    | [] => flush
    | c :: r =>
      if c = '\'' ∧ ¬inDQ then
        let (q, n) := sqScanP r
        pcwLoop fuel (r.drop n) inDQ [] (flush ++ [createWordString (String.mk q) true])
      else if c = '"' then
        pcwLoop fuel r (!inDQ) [] flush
      else if c = '$' then
        let (w, n) := pParamTail r
        pcwLoop fuel (r.drop n) inDQ [] (flush ++ [w])
      else if c = '`' ∧ ¬inDQ then
        pcwLoop fuel (r.drop (bqScanP r)) inDQ [] (flush ++ [WordAst.cmdSub none true])
      else if c = '\\' then
        match r with
        | [] => pcwLoop fuel [] inDQ cur acc
        | d :: r' => pcwLoop fuel r' inDQ (cur ++ [d]) acc
      else
        pcwLoop fuel r inDQ (cur ++ [c]) acc

/-- Parser.parseComplexWord: scan, then collapse a singleton list. -/
def parseComplexWord (value : String) : WordAst :=
  match pcwLoop (value.data.length + 1) value.data false [] [] with
  | [w] => w
  | ws => .list ws false

/-- Parser.parseWordValue: a value with none of the special characters
becomes a single String word, otherwise it is reconstructed. -/
def parseWordValue (value : String) : WordAst :=
  if value.data.contains '$' ∨ value.data.contains '`' ∨
     value.data.contains '"' ∨ value.data.contains '\'' then
    parseComplexWord value
  else createWordString value

/-- JS String.indexOf for a single character. -/
def jsIndexOf (c : Char) : List Char → Option Nat
  | [] => none
  | d :: r =>
    if d = c then some 0
    else match jsIndexOf c r with
      | some k => some (k + 1)
      | none => none

/-- The identifier test /^[a-zA-Z_][a-zA-Z0-9_]*$/ of
Parser.parseAssignment (line 293). -/
def validName (s : String) : Bool :=
  match s.data with
  | [] => false
  | c :: rest =>
    (('a' ≤ c ∧ c ≤ 'z') ∨ ('A' ≤ c ∧ c ≤ 'Z') ∨ c = '_') ∧ rest.all isWordChar

/-- The string-level part of Parser.parseAssignment (lines 285-301): the
raw token value is split at its first '=', the name must be a valid
identifier, and the characters after the '=' become a plain String word
with no reconstruction. -/
def parseAssignmentValue (w : String) : Option AssignAst :=
  match jsIndexOf '=' w.data with
  | none => none
  | some 0 => none
  | some k =>
    let name := String.mk (w.data.take k)
    if validName name then
      some (.mk name (createWordString (String.mk (w.data.drop (k + 1)))))
    else none

/-! ## Token-level parser (Parser class, src/parser/parser.ts)

The Parser holds a lexer, the current token and an optional peeked token
(the peeked slot is filled by peek(), which no parse method calls, so it
stays empty; advance() is embedded with the slot for fidelity).  Thrown
parse errors become Except.error.  The recursive-descent functions carry
a fuel argument decremented on every call; executeJS passes a fuel large
enough for the concrete programs the theorems run (running out of fuel
is reported as a parse error). -/

structure PSt where
  lx : LexSt
  cur : Token
  peeked : Option Token

/-- Parser constructor: prime currentToken from the lexer. -/
def initP (s : String) : PSt :=
  let (t, lx') := nextToken (lexInit s)
  ⟨lx', t, none⟩

/-- Parser.advance(): return the current token, pull the next. -/
def advanceP (st : PSt) : Token × PSt :=
  match st.peeked with
  | some t => (st.cur, ⟨st.lx, t, none⟩)
  | none =>
    let (t, lx') := nextToken st.lx
    (st.cur, ⟨lx', t, none⟩)

/-- Parser.match(type). -/
def matchP (st : PSt) (ty : TokType) : Bool :=
  st.cur.type = ty

/-- Parser.match(type, value). -/
def matchPV (st : PSt) (ty : TokType) (v : String) : Bool :=
  st.cur.type = ty ∧ st.cur.value = v

/-- Parser.accept(type, value). -/
def acceptPV (st : PSt) (ty : TokType) (v : String) : Bool × PSt :=
  if matchPV st ty v then (true, (advanceP st).2) else (false, st)

/-- The TokenType enum values, as interpolated into error messages. -/
def tokTypeStr : TokType → String
  | .word => "word"
  | .op => "operator"
  | .newline => "newline"
  | .eof => "eof"
  | .ioNumber => "io_number"

/-- Parser.expect(type): unexpected-token errors carry the line. -/
def expectP (st : PSt) (ty : TokType) : Except String (Token × PSt) :=
  if st.cur.type ≠ ty then
    .error ("Expected " ++ tokTypeStr ty ++ ", got " ++ tokTypeStr st.cur.type ++
      " at line " ++ toString st.cur.position.line)
  else .ok (advanceP st)

/-- Parser.expect(type, value). -/
def expectPV (st : PSt) (ty : TokType) (v : String) : Except String (Token × PSt) :=
  if st.cur.type ≠ ty then
    .error ("Expected " ++ tokTypeStr ty ++ ", got " ++ tokTypeStr st.cur.type ++
      " at line " ++ toString st.cur.position.line)
  else if st.cur.value ≠ v then
    .error ("Expected '" ++ v ++ "', got '" ++ st.cur.value ++ "' at line " ++
      toString st.cur.position.line)
  else .ok (advanceP st)

/-- Parser.parseWord(): a Word token's raw value, reconstructed. -/
def parseWordP (st : PSt) : Option WordAst × PSt :=
  if matchP st .word then
    let (t, st') := advanceP st
    (some (parseWordValue t.value), st')
  else (none, st)

/-- Parser.parseAssignment(): the current Word token split at its first
'=' (the string-level split is parseAssignmentValue); the token is
consumed only when it is an assignment. -/
def parseAssignmentP (st : PSt) : Option AssignAst × PSt :=
  if matchP st .word then
    match parseAssignmentValue st.cur.value with
    | some a => (some a, (advanceP st).2)
    | none => (none, st)
  else (none, st)

/-- parseInt of an IoNumber token (the lexer emits one decimal digit). -/
def ioNumVal (v : String) : Int :=
  match v.data with
  | c :: _ => Int.ofNat (c.toNat - '0'.toNat)
  | [] => 0

/-- Parser.parseIoRedirect(): the IoNumber (if any) is consumed first;
when no redirect operator follows the source returns null with the
IoNumber already consumed (the lexer emits IoNumber only before < or >,
so that path needs a crafted token stream). -/
def parseIoRedirectP (st : PSt) : Except String (Option RedirAst × PSt) :=
  let (ioNum, st1) :=
    if matchP st .ioNumber then
      (ioNumVal st.cur.value, (advanceP st).2)
    else ((-1 : Int), st)
  let opv := st1.cur.value
  let op : Option ROp :=
    if ¬matchP st1 .op then none
    else if opv = "<" then some .less
    else if opv = ">" then some .great
    else if opv = ">>" then some .dgreat
    else if opv = "<&" then some .lessAnd
    else if opv = ">&" then some .greatAnd
    else if opv = "<>" then some .lessGreat
    else if opv = ">|" then some .clobber
    else if opv = "<<" then some .dless
    else if opv = "<<-" then some .dlessDash
    else none
  match op with
  | none => .ok (none, st1)
  | some o =>
    let st2 := (advanceP st1).2
    if ¬matchP st2 .word then
      .error "Expected word after IO redirect operator"
    else
      match parseWordP st2 with
      | (some w, st3) => .ok (some (.mk ioNum o w), st3)
      | (none, _) => .error "Expected word after IO redirect operator"

mutual

/-- Parser.linebreak() / skipNewlines(): advance over NewLine tokens. -/
def linebreakF : Nat → PSt → PSt
  | 0, st => st
  | fuel + 1, st =>
    if matchP st .newline then linebreakF fuel (advanceP st).2 else st

/-- Parser.parse(). -/
def parseF : Nat → PSt → Except String ProgramAst
  | 0, _ => .error "parse ran out of fuel"
  | fuel + 1, st => do
    let st := linebreakF fuel st
    let (cls, _) ← parseTopLoopF fuel st []
    .ok (.mk cls)

/-- The statement loop of Parser.parse(). -/
def parseTopLoopF : Nat → PSt → List CmdListAst →
    Except String (List CmdListAst × PSt)
  | 0, _, _ => .error "parse ran out of fuel"
  | fuel + 1, st, acc =>
    if matchP st .eof then .ok (acc, st)
    else do
      let (cmd?, st) ← parseCommandListF fuel st
      let acc := match cmd? with | some c => acc ++ [c] | none => acc
      if matchP st .newline then
        parseTopLoopF fuel (linebreakF fuel st) acc
      else
        let (tk, st) := acceptPV st .op ";"
        if tk then parseTopLoopF fuel (linebreakF fuel st) acc
        else if ¬matchP st .eof then .ok (acc, st)
        else .ok (acc, st)

/-- Parser.parseCommandList(). -/
def parseCommandListF : Nat → PSt → Except String (Option CmdListAst × PSt)
  | 0, _ => .error "parse ran out of fuel"
  | fuel + 1, st => do
    let (aol?, st) ← parseAndOrListF fuel st
    match aol? with
    | none => .ok (none, st)
    | some aol =>
      let (amp, st) := acceptPV st .op "&"
      .ok (some (.mk aol amp), st)

/-- Parser.parseAndOrList(). -/
def parseAndOrListF : Nat → PSt → Except String (Option AndOrAst × PSt)
  | 0, _ => .error "parse ran out of fuel"
  | fuel + 1, st => do
    let (first?, st) ← parsePipelineF fuel st
    match first? with
    | none => .ok (none, st)
    | some first =>
      let (rest, st) ← parseAndOrRestF fuel st []
      .ok (some (.mk first rest), st)

/-- The &&/|| loop of Parser.parseAndOrList(). -/
def parseAndOrRestF : Nat → PSt → List (AndOrTy × PipelineAst) →
    Except String (List (AndOrTy × PipelineAst) × PSt)
  | 0, _, _ => .error "parse ran out of fuel"
  | fuel + 1, st, acc =>
    let (isAnd, st1) := acceptPV st .op "&&"
    if isAnd then do
      let st1 := linebreakF fuel st1
      let (p?, st1) ← parsePipelineF fuel st1
      match p? with
      | none => .error "Expected pipeline after && or ||"
      | some p => parseAndOrRestF fuel st1 (acc ++ [(.and, p)])
    else
      let (isOr, st2) := acceptPV st .op "||"
      if isOr then do
        let st2 := linebreakF fuel st2
        let (p?, st2) ← parsePipelineF fuel st2
        match p? with
        | none => .error "Expected pipeline after && or ||"
        | some p => parseAndOrRestF fuel st2 (acc ++ [(.or, p)])
      else .ok (acc, st)

/-- Parser.parsePipeline(). -/
def parsePipelineF : Nat → PSt → Except String (Option PipelineAst × PSt)
  | 0, _ => .error "parse ran out of fuel"
  | fuel + 1, st => do
    let (negation, st) :=
      if matchP st .word ∧ st.cur.value = "!" then (true, (advanceP st).2)
      else (false, st)
    let (first?, st) ← parseCommandF fuel st
    match first? with
    | none =>
      if negation then .error "Expected command after !"
      else .ok (none, st)
    | some first => do
      let (cmds, st) ← parsePipeRestF fuel st [first]
      .ok (some (.mk negation cmds), st)

/-- The | loop of Parser.parsePipeline(). -/
def parsePipeRestF : Nat → PSt → List CmdAst → Except String (List CmdAst × PSt)
  | 0, _, _ => .error "parse ran out of fuel"
  | fuel + 1, st, acc =>
    let (bar, st1) := acceptPV st .op "|"
    if bar then do
      let st1 := linebreakF fuel st1
      let (c?, st1) ← parseCommandF fuel st1
      match c? with
      | none => .error "Expected command after |"
      | some c => parsePipeRestF fuel st1 (acc ++ [c])
    else .ok (acc, st)

/-- Parser.parseCommand(). -/
def parseCommandF : Nat → PSt → Except String (Option CmdAst × PSt)
  | 0, _ => .error "parse ran out of fuel"
  | fuel + 1, st =>
    if matchPV st .op "\x7b" then do
      let (c, st) ← parseBraceGroupF fuel st
      .ok (some c, st)
    else if matchPV st .op "(" then do
      let (c, st) ← parseSubshellF fuel st
      .ok (some c, st)
    else if matchP st .word ∧ st.cur.value = "if" then do
      let (c, st) ← parseIfF fuel st
      .ok (some c, st)
    else if matchP st .word ∧ st.cur.value = "for" then do
      let (c, st) ← parseForF fuel st
      .ok (some c, st)
    else if matchP st .word ∧ st.cur.value = "while" then do
      let (c, st) ← parseLoopClauseF fuel false st
      .ok (some c, st)
    else if matchP st .word ∧ st.cur.value = "until" then do
      let (c, st) ← parseLoopClauseF fuel true st
      .ok (some c, st)
    else if matchP st .word ∧ st.cur.value = "case" then do
      let (c, st) ← parseCaseF fuel st
      .ok (some c, st)
    else do
      let (sc?, st) ← parseSimpleCommandF fuel st
      .ok (sc?.map (fun c => c), st)

/-- Parser.parseSimpleCommand(). -/
def parseSimpleCommandF : Nat → PSt → Except String (Option CmdAst × PSt)
  | 0, _ => .error "parse ran out of fuel"
  | fuel + 1, st => do
    let (assignments, redirects, st) ← parseScPrefixF fuel st [] []
    let (name?, st) :=
      if matchP st .word ∧ ¬isReservedWord st.cur.value then parseWordP st
      else (none, st)
    if name?.isNone ∧ assignments.isEmpty ∧ redirects.isEmpty then
      .ok (none, st)
    else do
      let (args, redirects, st) ← parseScSuffixF fuel st [] redirects
      .ok (some (.simple name? args redirects assignments), st)

/-- The prefix loop of parseSimpleCommand: redirects and assignments. -/
def parseScPrefixF : Nat → PSt → List AssignAst → List RedirAst →
    Except String (List AssignAst × List RedirAst × PSt)
  | 0, _, _, _ => .error "parse ran out of fuel"
  | fuel + 1, st, assigns, redirs => do
    let (r?, st) ← parseIoRedirectP st
    match r? with
    | some r => parseScPrefixF fuel st assigns (redirs ++ [r])
    | none =>
      match parseAssignmentP st with
      | (some a, st) => parseScPrefixF fuel st (assigns ++ [a]) redirs
      | (none, st) => .ok (assigns, redirs, st)

/-- The suffix loop of parseSimpleCommand: redirects and argument words. -/
def parseScSuffixF : Nat → PSt → List WordAst → List RedirAst →
    Except String (List WordAst × List RedirAst × PSt)
  | 0, _, _, _ => .error "parse ran out of fuel"
  | fuel + 1, st, args, redirs => do
    let (r?, st) ← parseIoRedirectP st
    match r? with
    | some r => parseScSuffixF fuel st args (redirs ++ [r])
    | none =>
      if matchP st .word ∧ ¬isReservedWord st.cur.value then
        match parseWordP st with
        | (some w, st) => parseScSuffixF fuel st (args ++ [w]) redirs
        | (none, st) => .ok (args, redirs, st)
      else .ok (args, redirs, st)

/-- Parser.parseBraceGroup(). -/
def parseBraceGroupF : Nat → PSt → Except String (CmdAst × PSt)
  | 0, _ => .error "parse ran out of fuel"
  | fuel + 1, st => do
    let (_, st) ← expectPV st .op "\x7b"
    let st := linebreakF fuel st
    let (body, st) ← parseCompoundListF fuel st
    let (_, st) ← expectPV st .op "\x7d"
    .ok (.braceGroup body, st)

/-- Parser.parseSubshell(). -/
def parseSubshellF : Nat → PSt → Except String (CmdAst × PSt)
  | 0, _ => .error "parse ran out of fuel"
  | fuel + 1, st => do
    let (_, st) ← expectPV st .op "("
    let st := linebreakF fuel st
    let (body, st) ← parseCompoundListF fuel st
    let (_, st) ← expectPV st .op ")"
    .ok (.subshell body, st)

/-- Parser.parseCompoundList(). -/
def parseCompoundListF : Nat → PSt → Except String (List CmdListAst × PSt)
  | 0, _ => .error "parse ran out of fuel"
  | fuel + 1, st =>
    parseCompoundLoopF fuel (linebreakF fuel st) []

/-- The loop of Parser.parseCompoundList(). -/
def parseCompoundLoopF : Nat → PSt → List CmdListAst →
    Except String (List CmdListAst × PSt)
  | 0, _, _ => .error "parse ran out of fuel"
  | fuel + 1, st, acc =>
    if matchP st .eof then .ok (acc, st)
    else if matchPV st .op "\x7d" ∨ matchPV st .op ")" ∨
        (matchP st .word ∧
          st.cur.value ∈ ["then", "else", "elif", "fi", "do", "done", "esac"]) then
      .ok (acc, st)
    else do
      let (cmd?, st) ← parseCommandListF fuel st
      let acc := match cmd? with | some c => acc ++ [c] | none => acc
      if matchP st .newline then
        parseCompoundLoopF fuel (linebreakF fuel st) acc
      else
        let (semi, st) := acceptPV st .op ";"
        if semi then parseCompoundLoopF fuel (linebreakF fuel st) acc
        else .ok (acc, st)

/-- Parser.parseIfClause(). -/
def parseIfF : Nat → PSt → Except String (CmdAst × PSt)
  | 0, _ => .error "parse ran out of fuel"
  | fuel + 1, st => do
    let (_, st) ← expectPV st .word "if"
    let st := linebreakF fuel st
    let (condition, st) ← parseCompoundListF fuel st
    let (_, st) ← expectPV st .word "then"
    let st := linebreakF fuel st
    let (body, st) ← parseCompoundListF fuel st
    let (elseClause?, st) ←
      if matchP st .word ∧ st.cur.value = "elif" then do
        let (c, st) ← parseIfF fuel st
        pure (some c, st)
      else do
        let (els, st') := acceptPV st .word "else"
        if els then do
          let st' := linebreakF fuel st'
          let (elseBody, st') ← parseCompoundListF fuel st'
          pure (some (CmdAst.braceGroup elseBody), st')
        else pure (none, st')
    let (_, st) ← expectPV st .word "fi"
    .ok (.ifClause condition body elseClause?, st)

/-- Parser.parseForClause(). -/
def parseForF : Nat → PSt → Except String (CmdAst × PSt)
  | 0, _ => .error "parse ran out of fuel"
  | fuel + 1, st => do
    let (_, st) ← expectPV st .word "for"
    if ¬matchP st .word then .error "Expected variable name after for"
    else do
      let (nameTok, st) := advanceP st
      let st := linebreakF fuel st
      let (hasIn, words, st) ← do
        let (inKw, st') := acceptPV st .word "in"
        if inKw then do
          let (ws, st') ← parseForWordsF fuel st' []
          pure (true, ws, st')
        else pure (false, ([] : List WordAst), st')
      let (semi, st) := acceptPV st .op ";"
      let st := if semi then st else linebreakF fuel st
      let (_, st) ← expectPV st .word "do"
      let st := linebreakF fuel st
      let (body, st) ← parseCompoundListF fuel st
      let (_, st) ← expectPV st .word "done"
      .ok (.forClause nameTok.value hasIn words body, st)

/-- The word loop of Parser.parseForClause(). -/
def parseForWordsF : Nat → PSt → List WordAst → Except String (List WordAst × PSt)
  | 0, _, _ => .error "parse ran out of fuel"
  | fuel + 1, st, acc =>
    if matchP st .word ∧ ¬isReservedWord st.cur.value then
      match parseWordP st with
      | (some w, st) => parseForWordsF fuel st (acc ++ [w])
      | (none, st) => .ok (acc, st)
    else .ok (acc, st)

/-- Parser.parseLoopClause(). -/
def parseLoopClauseF : Nat → Bool → PSt → Except String (CmdAst × PSt)
  | 0, _, _ => .error "parse ran out of fuel"
  | fuel + 1, isUntil, st => do
    let (_, st) ← expectPV st .word (if isUntil then "until" else "while")
    let st := linebreakF fuel st
    let (condition, st) ← parseCompoundListF fuel st
    let (_, st) ← expectPV st .word "do"
    let st := linebreakF fuel st
    let (body, st) ← parseCompoundListF fuel st
    let (_, st) ← expectPV st .word "done"
    .ok (.loopClause isUntil condition body, st)

/-- Parser.parseCaseClause(). -/
def parseCaseF : Nat → PSt → Except String (CmdAst × PSt)
  | 0, _ => .error "parse ran out of fuel"
  | fuel + 1, st => do
    let (_, st) ← expectPV st .word "case"
    let (word?, st) := parseWordP st
    match word? with
    | none => .error "Expected word after case"
    | some word => do
      let st := linebreakF fuel st
      let (_, st) ← expectPV st .word "in"
      let st := linebreakF fuel st
      let (items, st) ← parseCaseItemsF fuel st []
      let (_, st) ← expectPV st .word "esac"
      .ok (.caseClause word items, st)

/-- The item loop of Parser.parseCaseClause(). -/
def parseCaseItemsF : Nat → PSt → List CaseItemAst →
    Except String (List CaseItemAst × PSt)
  | 0, _, _ => .error "parse ran out of fuel"
  | fuel + 1, st, acc =>
    if matchP st .word ∧ st.cur.value = "esac" then .ok (acc, st)
    else if matchP st .eof then .error "Unexpected EOF in case"
    else do
      let (_, st) := acceptPV st .op "("
      let (patterns, st) ← parseCasePatternsF fuel st []
      let (_, st) ← expectPV st .op ")"
      let st := linebreakF fuel st
      let (body, st) ← parseCompoundListF fuel st
      let acc := acc ++ [CaseItemAst.mk patterns body]
      let (dsemi, st) := acceptPV st .op ";;"
      if dsemi then parseCaseItemsF fuel (linebreakF fuel st) acc
      else .ok (acc, st)

/-- The do-while pattern loop of Parser.parseCaseClause(). -/
def parseCasePatternsF : Nat → PSt → List WordAst →
    Except String (List WordAst × PSt)
  | 0, _, _ => .error "parse ran out of fuel"
  | fuel + 1, st, acc =>
    let (p?, st) := parseWordP st
    let acc := match p? with | some p => acc ++ [p] | none => acc
    let (bar, st) := acceptPV st .op "|"
    if bar then parseCasePatternsF fuel st acc
    else .ok (acc, st)

end

/-- The parse(input) entry of src/parser/parser.ts, with fuel ample for
the programs the theorems evaluate. -/
def parseJS (s : String) : Except String ProgramAst :=
  parseF (s.data.length + 32) (initP s)

/-! ## Shell state (src/shell/shell.ts)

The Shell's stdout/stderr fields are JS closures; the evaluator rebinds
stdout to capture closures (pipelines, > redirects, command
substitution), copies stderr into stdout (>&2), and restores saved
bindings.  A binding is modelled as a channel value: the host stdout,
the host stderr, or an indexed capture buffer (a fresh buffer index
models a fresh capture closure; all writes through the binding append to
the named buffer). -/

inductive Chan where
  | host
  | hostErr
  | buf (i : Nat)
deriving DecidableEq, Repr

/-- A parsed-argument value (string or boolean) of CommandRegistry.parseArgs. -/
inductive ArgVal where
  | s (v : String)
  | b (v : Bool)
deriving DecidableEq, Repr

/-- The ParsedArgs object: named options in insertion order plus the
positional list. -/
structure ParsedArgs where
  named : List (String × ArgVal)
  pos : List String
deriving DecidableEq, Repr

/-- One option of a command's parameter schema, as parseArgs consults
it: its name, whether its declared type is boolean, and its short form. -/
structure OptSpec where
  name : String
  isBoolean : Bool
  short : Option Char
deriving DecidableEq, Repr

/-- What a command handler sees (CommandContext): parsed args, the pipe
buffer as stdin, the environment view and the cwd.  The stdout/stderr
callbacks, filesystem and shell reference of the source context are
represented by the handler's result instead. -/
structure ActionCtx where
  args : ParsedArgs
  stdin : String
  env : List (String × String)
  cwd : String

/-- A handler's observable behaviour: exit code, text written to stdout
and stderr, environment mutations (ctx.env.set / shell.setEnv /
unsetEnv), a cd (shell.setCwd) and an exit(code) request.  Handlers are
host code outside the core (spec section 1); this models the effects the
builtins perform through the context.  Handlers that throw are outside
the model, so the evaluator's catch-into-exit-1 branch is not
represented. -/
structure ActionRes where
  code : Int
  out : String
  err : String
  envSets : List (String × String)
  envUnsets : List String
  newCwd : Option String
  exitReq : Option Int

/-- A registered VirtualCommand as the evaluator consults it. -/
structure VCmd where
  name : String
  aliases : List String
  options : List OptSpec
  paramAliases : List (String × String)
  action : ActionCtx → ActionRes

/-- The Shell's mutable state: env, cwd (and its mirror in this.state),
aliases, functions, last exit code, running flag, pipe buffer, the
stdout/stderr bindings, the host streams' received text, the capture
buffers, the filesystem (path to contents) and the command registry. -/
structure EvalSt where
  env : List (String × String)
  cwd : String
  stateCwd : String
  aliases : List (String × String)
  functions : List (String × CmdAst)
  lastExitCode : Int
  running : Bool
  pipeBuffer : String
  stdout : Chan
  stderr : Chan
  hostOut : String
  hostErr : String
  bufs : List String
  fsys : List (String × String)
  cmds : List VCmd
  cmdAliases : List (String × String)

/-- Writing text through a binding. -/
def writeChan (st : EvalSt) (ch : Chan) (text : String) : EvalSt :=
  match ch with
  | .host => { st with hostOut := st.hostOut ++ text }
  | .hostErr => { st with hostErr := st.hostErr ++ text }
  | .buf i => { st with bufs := st.bufs.set i (st.bufs.getD i "" ++ text) }

/-- A fresh capture buffer (a new JS closure over a new local string). -/
def allocBuf (st : EvalSt) : Nat × EvalSt :=
  (st.bufs.length, { st with bufs := st.bufs ++ [""] })

/-- CommandRegistry.get: aliases first (an empty canonical name is falsy
in `this.aliases.get(name) || name`), then the command map. -/
def registryGet (st : EvalSt) (name : String) : Option VCmd :=
  let realName :=
    match mget st.cmdAliases name with
    | some a => if a = "" then name else a
    | none => name
  st.cmds.find? (fun c => c.name = realName)

/-- Shell.setCwd: cwd, its state mirror, and env PWD. -/
def setCwdM (st : EvalSt) (path : String) : EvalSt :=
  { st with cwd := path, stateCwd := path, env := mset st.env "PWD" path }

/-- memfs readFileSync: Option models the ENOENT throw. -/
def readFileSyncM (fs : List (String × String)) (path : String) : Option String :=
  mget fs path

/-- memfs writeFileSync (modelled always succeeding). -/
def writeFileSyncM (fs : List (String × String)) (path data : String) :
    List (String × String) :=
  mset fs path data

/-- memfs appendFileSync: append to the file, creating it if absent. -/
def appendFileSyncM (fs : List (String × String)) (path data : String) :
    List (String × String) :=
  match mget fs path with
  | some c => mset fs path (c ++ data)
  | none => mset fs path data

/-! ## Glob-to-regex compilation and JS regex matching

expandParameter (shell.ts lines 720-737) and runCaseClause (lines
600-607) compile a pattern by escaping every regex metacharacter except
* and ?, then turning * into .* and ? into . .  The compiled regex is a
concatenation of literals, . and .* ; its JS matching semantics (leftmost
match, per-star greedy backtracking) are embedded below. -/

inductive RTok where
  | lit (c : Char)
  | anyOne
  | anyStar
deriving DecidableEq, Repr

/-- The compile chain escape-metacharacters then *→.* then ?→. :
per source character, * becomes .*, ? becomes ., everything else is a
regex literal (metacharacters having been escaped). -/
def glob2re (l : List Char) : List RTok :=
  l.map (fun c => if c = '*' then .anyStar else if c = '?' then .anyOne else .lit c)

/-- Complete match of a compiled pattern against a whole string (the
anchored ^pattern$ test).  Each recursive call shrinks pattern-plus-
string, so the fuel passed by fullMatch always suffices. -/
def fullMatchF (fuel : Nat) (p : List RTok) (s : List Char) : Bool :=
  match fuel with
  | 0 => false
  | fuel + 1 =>
    match p, s with
    | [], [] => true
    | [], _ :: _ => false
    | .lit _ :: _, [] => false
    | .lit c :: p', d :: s' => c = d && fullMatchF fuel p' s'
    | .anyOne :: _, [] => false
    | .anyOne :: p', _ :: s' => fullMatchF fuel p' s'
    | .anyStar :: p', _ =>
      fullMatchF fuel p' s ||
        (match s with
         | [] => false
         | _ :: s' => fullMatchF fuel p s')

def fullMatch (p : List RTok) (s : List Char) : Bool :=
  fullMatchF (p.length + s.length + 1) p s

/-- Greedy anchored match at the start of the string: the number of
characters the JS engine's backtracking match of ^pattern consumes
(each .* tries the longest extension first), none when no prefix
matches. -/
def reMatchEndF (fuel : Nat) (p : List RTok) (s : List Char) : Option Nat :=
  match fuel with
  | 0 => none
  | fuel + 1 =>
    match p, s with
    | [], _ => some 0
    | .lit _ :: _, [] => none
    | .lit c :: p', d :: s' =>
      if c = d then (reMatchEndF fuel p' s').map (· + 1) else none
    | .anyOne :: _, [] => none
    | .anyOne :: p', _ :: s' => (reMatchEndF fuel p' s').map (· + 1)
    | .anyStar :: p', _ =>
      match s with
      | [] => reMatchEndF fuel p' []
      | _ :: s' =>
        match reMatchEndF fuel p s' with
        | some n => some (n + 1)
        | none => reMatchEndF fuel p' s

def reMatchEnd (p : List RTok) (s : List Char) : Option Nat :=
  reMatchEndF (p.length + s.length + 1) p s

/-- value.replace(new RegExp('^' + src), ''): remove the greedy
anchored prefix match, if any. -/
def jsStripPre (v : List Char) (p : List RTok) : List Char :=
  match reMatchEnd p v with
  | some n => v.drop n
  | none => v

/-- The leftmost start index whose suffix fully matches the pattern. -/
def sufMatchIdx (p : List RTok) : List Char → Option Nat
  | [] => if fullMatch p [] then some 0 else none
  | c :: r =>
    if fullMatch p (c :: r) then some 0
    else (sufMatchIdx p r).map (· + 1)

/-- value.replace(new RegExp(src + '$'), ''): a match of src followed by
the end anchor is a complete match of some suffix; replace removes the
leftmost (hence longest) such suffix. -/
def jsStripSuf (v : List Char) (p : List RTok) : List Char :=
  match sufMatchIdx p v with
  | some i => v.take i
  | none => v

/-! ## Word engine helpers (shell.ts lines 670-803) -/

/-- Shell.getVariable (lines 759-780). -/
def getVariable (st : EvalSt) (name : String) : String :=
  if name = "?" then toString st.lastExitCode
  else if name = "$" then "1"
  else if name = "!" then "1"
  else if name = "-" then ""
  else if name = "#" then "0"
  else if name = "*" then ""
  else if name = "@" then ""
  else if name = "0" then "mrsh"
  else
    match mget st.env name with
    | some v => v
    | none => ""

/-- Shell.expandWordSync (lines 748-754): only String words expand
synchronously; anything else yields the empty string. -/
def expandWordSync (w : WordAst) : String :=
  match w with
  | .str v _ _ => v
  | _ => ""

/-- Shell.expandParameter (lines 673-743).  `!value` in JS is true
exactly when the string is empty, so every "unset or null" test below is
value = "" (with the colon conjunct kept as written in the source, where
it is redundant). -/
def expandParameter (st : EvalSt) (name : String) (op : POp) (colon : Bool)
    (arg : Option WordAst) : String × EvalSt :=
  let value := getVariable st name
  match op with
  | .none => (value, st)
  | .minus =>
    if value = "" ∨ (colon ∧ value = "") then
      ((arg.map expandWordSync).getD "", st)
    else (value, st)
  | .equal =>
    if value = "" ∨ (colon ∧ value = "") then
      let defaultValue := (arg.map expandWordSync).getD ""
      (defaultValue, { st with env := mset st.env name defaultValue })
    else (value, st)
  | .qmark =>
    if value = "" ∨ (colon ∧ value = "") then
      let msg := (arg.map expandWordSync).getD "parameter not set"
      ("", writeChan st st.stderr ("mrsh: " ++ name ++ ": " ++ msg ++ "\n"))
    else (value, st)
  | .plus =>
    if value ≠ "" ∧ (¬colon ∨ value ≠ "") then
      ((arg.map expandWordSync).getD "", st)
    else ("", st)
  | .leadingHash => (toString value.length, st)
  | .percent | .dpercent | .hash | .dhash =>
    match arg with
    | some a =>
      let pattern := expandWordSync a
      let pat := glob2re pattern.data
      if op = .percent ∨ op = .dpercent then
        (String.mk (jsStripSuf value.data pat), st)
      else
        (String.mk (jsStripPre value.data pat), st)
    | none => (value, st)

/-! ## Arithmetic evaluation (Shell.evaluateArithmetic, lines 785-803)

The source substitutes $name variables, strips every character outside
[0-9+\-*\/%() ] and hands the remainder to a JS Function for evaluation,
flooring the numeric result.  The JS evaluation is embedded as the JS
expression grammar over the surviving tokens, computed in exact rational
arithmetic: integer literals (with the sloppy-mode legacy octal rule),
parentheses, unary plus and minus, binary + - * and the remainder, with true division and
the JS remainder (sign of the dividend).  Deviations from the JS number
type, outside what any claim exercises: values are exact rationals
rather than doubles, division by zero is an evaluation failure (JS
produces Infinity or NaN), and the ** operator is a failure (the maximal
munch makes ++ and -- single tokens, which JS also rejects here). -/

/-- The regex replace of \$(\w+) by the variable's value (line 787). -/
def arithSubstF (st : EvalSt) (fuel : Nat) (l : List Char) : List Char :=
  match fuel with
  | 0 => l
  | fuel + 1 =>
    match l with
    | [] => []
    | '$' :: r =>
      let (nm, k) := nameScanP r
      if nm = [] then '$' :: arithSubstF st fuel r
      else (getVariable st (String.mk nm)).data ++ arithSubstF st fuel (r.drop k)
    | c :: r => c :: arithSubstF st fuel r

def arithSubst (st : EvalSt) (l : List Char) : List Char :=
  arithSubstF st (l.length + 1) l

/-- The character class kept by the sanitize step (line 793). -/
def isArithChar (c : Char) : Bool :=
  ('0' ≤ c ∧ c ≤ '9') ∨ c ∈ ['+', '-', '*', '/', '%', '(', ')', ' ']

/-- Tokens of the surviving expression text. -/
inductive ATok where
  | num (q : Nat)
  | plus | minus | star | slash | percent | lparen | rparen
  | dstar | dplus | dminus
deriving DecidableEq, Repr

/-- Digit run scan: (digits, count). -/
def digitScan : List Char → List Char × Nat
  | [] => ([], 0)
  | c :: r =>
    if '0' ≤ c ∧ c ≤ '9' then
      let (v, n) := digitScan r
      (c :: v, n + 1)
    else ([], 0)

/-- Value of a digit run under JS sloppy-mode numeric literals: a
leading zero makes the literal octal when all digits are octal,
otherwise it falls back to decimal. -/
def jsNumVal (ds : List Char) : Nat :=
  let dec := ds.foldl (fun a c => a * 10 + (c.toNat - '0'.toNat)) 0
  match ds with
  | '0' :: _ :: _ =>
    if ds.all (fun c => '0' ≤ c ∧ c ≤ '7') then
      ds.foldl (fun a c => a * 8 + (c.toNat - '0'.toNat)) 0
    else dec
  | _ => dec

/-- JS maximal-munch tokenization of the sanitized text (** ++ -- are
single tokens). -/
def aTokenizeF (fuel : Nat) (l : List Char) : Option (List ATok) :=
  match fuel with
  | 0 => none
  | fuel + 1 =>
    match l with
    | [] => some []
    | ' ' :: r => aTokenizeF fuel r
    | '*' :: '*' :: r => (aTokenizeF fuel r).map (.dstar :: ·)
    | '+' :: '+' :: r => (aTokenizeF fuel r).map (.dplus :: ·)
    | '-' :: '-' :: r => (aTokenizeF fuel r).map (.dminus :: ·)
    | '*' :: r => (aTokenizeF fuel r).map (.star :: ·)
    | '+' :: r => (aTokenizeF fuel r).map (.plus :: ·)
    | '-' :: r => (aTokenizeF fuel r).map (.minus :: ·)
    | '/' :: r => (aTokenizeF fuel r).map (.slash :: ·)
    | '%' :: r => (aTokenizeF fuel r).map (.percent :: ·)
    | '(' :: r => (aTokenizeF fuel r).map (.lparen :: ·)
    | ')' :: r => (aTokenizeF fuel r).map (.rparen :: ·)
    | c :: r =>
      if '0' ≤ c ∧ c ≤ '9' then
        let (ds, k) := digitScan (c :: r)
        (aTokenizeF fuel ((c :: r).drop k)).map (.num (jsNumVal ds) :: ·)
      else none

def aTokenize (l : List Char) : Option (List ATok) :=
  aTokenizeF (l.length + 1) l

/-- Exact rational values for the embedded JS evaluation: an integer
pair with positive denominator (every operation below preserves the
sign convention).  Only zero-tests and the final floor inspect a value,
so pairs need not be reduced. -/
structure QV where
  num : Int
  den : Int
deriving Repr

def qOfNat (n : Nat) : QV := ⟨Int.ofNat n, 1⟩

def qNeg (a : QV) : QV := ⟨-a.num, a.den⟩

def qAdd (a b : QV) : QV := ⟨a.num * b.den + b.num * a.den, a.den * b.den⟩

def qSub (a b : QV) : QV := ⟨a.num * b.den - b.num * a.den, a.den * b.den⟩

def qMul (a b : QV) : QV := ⟨a.num * b.num, a.den * b.den⟩

/-- Division (the caller guards a zero divisor); the sign moves to the
numerator to keep the denominator positive. -/
def qDiv (a b : QV) : QV :=
  let n := a.num * b.den
  let d := a.den * b.num
  if d < 0 then ⟨-n, -d⟩ else ⟨n, d⟩

def qIsZero (a : QV) : Bool := a.num = 0

/-- Math.floor. -/
def qFloor (a : QV) : Int := Int.fdiv a.num a.den

/-- Truncation toward zero (what JS % uses internally). -/
def qTrunc (a : QV) : Int := Int.tdiv a.num a.den

/-- The JS remainder: sign of the dividend; zero divisor fails. -/
def jsMod (a b : QV) : Option QV :=
  if qIsZero b then none else some (qSub a (qMul b ⟨qTrunc (qDiv a b), 1⟩))

mutual

/-- AdditiveExpression. -/
def aExprF : Nat → List ATok → Option (QV × List ATok)
  | 0, _ => none
  | fuel + 1, ts => do
    let (v, ts) ← aTermF fuel ts
    aExprLoopF fuel v ts

def aExprLoopF : Nat → QV → List ATok → Option (QV × List ATok)
  | 0, _, _ => none
  | fuel + 1, v, ts =>
    match ts with
    | .plus :: r => do
      let (w, ts') ← aTermF fuel r
      aExprLoopF fuel (qAdd v w) ts'
    | .minus :: r => do
      let (w, ts') ← aTermF fuel r
      aExprLoopF fuel (qSub v w) ts'
    | _ => some (v, ts)

/-- MultiplicativeExpression. -/
def aTermF : Nat → List ATok → Option (QV × List ATok)
  | 0, _ => none
  | fuel + 1, ts => do
    let (v, ts) ← aFactorF fuel ts
    aTermLoopF fuel v ts

def aTermLoopF : Nat → QV → List ATok → Option (QV × List ATok)
  | 0, _, _ => none
  | fuel + 1, v, ts =>
    match ts with
    | .star :: r => do
      let (w, ts') ← aFactorF fuel r
      aTermLoopF fuel (qMul v w) ts'
    | .slash :: r => do
      let (w, ts') ← aFactorF fuel r
      if qIsZero w then none else aTermLoopF fuel (qDiv v w) ts'
    | .percent :: r => do
      let (w, ts') ← aFactorF fuel r
      match jsMod v w with
      | some m => aTermLoopF fuel m ts'
      | none => none
    | _ => some (v, ts)

/-- UnaryExpression and PrimaryExpression. -/
def aFactorF : Nat → List ATok → Option (QV × List ATok)
  | 0, _ => none
  | fuel + 1, ts =>
    match ts with
    | .plus :: r => aFactorF fuel r
    | .minus :: r => (aFactorF fuel r).map (fun (v, ts') => (qNeg v, ts'))
    | .num n :: r => some (qOfNat n, r)
    | .lparen :: r => do
      let (v, ts') ← aExprF fuel r
      match ts' with
      | .rparen :: ts'' => some (v, ts'')
      | _ => none
    | _ => none

end

/-- Evaluation of the sanitized expression text: a full parse of the JS
expression grammar; anything else (including leftover tokens) is an
evaluation failure. -/
def aEval (l : List Char) : Option QV :=
  match aTokenize l with
  | none => none
  | some ts =>
    match aExprF (ts.length + l.length + 2) ts with
    | some (v, []) => some v
    | _ => none

/-- Shell.evaluateArithmetic (lines 785-803): substitute, sanitize,
evaluate, Math.floor the numeric result; any failure yields 0. -/
def evaluateArithmetic (st : EvalSt) (expr : String) : Int :=
  let expanded := arithSubst st expr.data
  let sanitized := expanded.filter isArithChar
  match aEval sanitized with
  | some q => qFloor q
  | none => 0

/-- Shell.normalizePath (lines 822-835). -/
def normalizePath (path : String) : String :=
  let parts := (path.split (· = '/')).filter (fun p => p ≠ "" ∧ p ≠ ".")
  let result := parts.foldl
    (fun acc part => if part = ".." then acc.dropLast else acc ++ [part]) []
  "/" ++ String.intercalate "/" result

/-- Shell.resolvePath (lines 808-817). -/
def resolvePath (st : EvalSt) (path : String) : String :=
  if path.startsWith "/" then normalizePath path
  else if path.startsWith "~" then
    let home := match mget st.env "HOME" with
      | some h => if h = "" then "/home/user" else h
      | none => "/home/user"
    normalizePath (home ++ path.drop 1)
  else normalizePath (st.cwd ++ "/" ++ path)

/-! ## Argument parsing (CommandRegistry.parseArgs, src/shell/commands.ts
lines 129-186) -/

/-- JS object property write: overwrite in place or append. -/
def oset (m : List (String × ArgVal)) (k : String) (v : ArgVal) :
    List (String × ArgVal) :=
  match m with
  | [] => [(k, v)]
  | (k', v') :: rest => if k' = k then (k, v) :: rest else (k', v') :: oset rest k v

/-- JS object property read (undefined when absent). -/
def oget (m : List (String × String)) (k : String) : Option String :=
  match m with
  | [] => none
  | (k', v) :: rest => if k' = k then some v else oget rest k

/-- Whether `opt?.type !== 'boolean'` holds for the option found under
the given name. -/
def optNotBoolean (options : List OptSpec) (name : String) : Bool :=
  match options.find? (fun o => o.name = name) with
  | some o => ¬o.isBoolean
  | none => true

/-- The left-to-right loop of parseArgs; every iteration consumes at
least one argument, so the fuel args.length + 1 that parseArgs passes
always completes the loop. -/
def parseArgsLoopF (options : List OptSpec) (paramAliases : List (String × String)) :
    Nat → List String → ParsedArgs → ParsedArgs
  | 0, _, acc => acc
  | _ + 1, [], acc => acc
  | fuel + 1, arg :: rest, acc =>
    if arg.startsWith "--" then
      match jsIndexOf '=' arg.data with
      | some eqIndex =>
        let rawName := String.mk ((arg.data.drop 2).take (eqIndex - 2))
        let name := (oget paramAliases rawName).getD rawName
        let value := String.mk (arg.data.drop (eqIndex + 1))
        parseArgsLoopF options paramAliases fuel rest
          { acc with named := oset acc.named name (.s value) }
      | none =>
        let rawName := String.mk (arg.data.drop 2)
        let name := (oget paramAliases rawName).getD rawName
        if optNotBoolean options name then
          match rest with
          | v :: rest' =>
            parseArgsLoopF options paramAliases fuel rest'
              { acc with named := oset acc.named name (.s v) }
          | [] =>
            parseArgsLoopF options paramAliases fuel rest
              { acc with named := oset acc.named name (.b true) }
        else
          parseArgsLoopF options paramAliases fuel rest
            { acc with named := oset acc.named name (.b true) }
    else if arg.startsWith "-" ∧ arg.length = 2 then
      let short := String.mk (arg.data.drop 1)
      let viaAlias :=
        match oget paramAliases short with
        | some canonicalName => if canonicalName = "" then none else some canonicalName
        | none => none
      match viaAlias with
      | some canonicalName =>
        if optNotBoolean options canonicalName then
          match rest with
          | v :: rest' =>
            parseArgsLoopF options paramAliases fuel rest'
              { acc with named := oset acc.named canonicalName (.s v) }
          | [] =>
            parseArgsLoopF options paramAliases fuel rest
              { acc with named := oset acc.named canonicalName (.b true) }
        else
          parseArgsLoopF options paramAliases fuel rest
            { acc with named := oset acc.named canonicalName (.b true) }
      | none =>
        -- no (truthy) alias: match a declared short form, else record true
        match options.find? (fun o => o.short = short.data.head?) with
        | some opt =>
          if ¬opt.isBoolean then
            match rest with
            | v :: rest' =>
              parseArgsLoopF options paramAliases fuel rest'
                { acc with named := oset acc.named opt.name (.s v) }
            | [] =>
              parseArgsLoopF options paramAliases fuel rest
                { acc with named := oset acc.named opt.name (.b true) }
          else
            parseArgsLoopF options paramAliases fuel rest
              { acc with named := oset acc.named opt.name (.b true) }
        | none =>
          parseArgsLoopF options paramAliases fuel rest
            { acc with named := oset acc.named short (.b true) }
    else
      parseArgsLoopF options paramAliases fuel rest { acc with pos := acc.pos ++ [arg] }

/-- CommandRegistry.parseArgs. -/
def parseArgs (cmd : VCmd) (args : List String) : ParsedArgs :=
  parseArgsLoopF cmd.options cmd.paramAliases (args.length + 1) args ⟨[], []⟩

/-! ## Evaluator (src/shell/shell.ts)

Every evaluator function takes a fuel argument and passes the
decremented fuel to every nested call (loops included); out of fuel is
None.  The fuel is the embedding's device for the mutual recursion -
the source has no such bound, which is exactly what the alias-recursion
theorem exhibits. -/

/-- Shell.functions lookup. -/
def fget (m : List (String × CmdAst)) (k : String) : Option CmdAst :=
  match m with
  | [] => none
  | (k', v) :: rest => if k' = k then some v else fget rest k

/-- output.replace(/\n$/, ''): strip at most one trailing newline. -/
def trimOneNl (s : String) : String :=
  if s.endsWith "\n" then s.dropRight 1 else s

/-- The handler's visible effects applied to the state, in the order a
builtin performs them through its context. -/
def applyAction (st : EvalSt) (res : ActionRes) : EvalSt :=
  let st := writeChan st st.stdout res.out
  let st := writeChan st st.stderr res.err
  let st := { st with env := res.envUnsets.foldl mdel (res.envSets.foldl (fun e (p : String × String) => mset e p.1 p.2) st.env) }
  let st := match res.newCwd with
    | some p => setCwdM st p
    | none => st
  match res.exitReq with
  | some c => { st with running := false, lastExitCode := c }
  | none => st

/-- Outcome of the redirect-setup loop of runSimpleCommand: either the
early `return 1` of a failed < redirect, or the state plus the pending
output-redirect bookkeeping (target file, append mode, capture buffer). -/
inductive RedirOut where
  | exited (code : Int) (st : EvalSt)
  | cont (st : EvalSt) (file : Option String) (append : Bool) (bufId : Option Nat)

mutual

/-- Shell.execute (lines 217-226): parse, run; a parse error prints
"mrsh: message" and exits 2. -/
def executeF : Nat → String → EvalSt → Option (Int × EvalSt)
  | 0, _, _ => none
  | fuel + 1, input, st =>
    match parseJS input with
    | .ok program => runProgramF fuel program st
    | .error msg =>
      let st := writeChan st st.stderr ("mrsh: " ++ msg ++ "\n")
      some (2, { st with lastExitCode := 2 })

/-- Shell.runProgram (lines 231-241). -/
def runProgramF : Nat → ProgramAst → EvalSt → Option (Int × EvalSt)
  | 0, _, _ => none
  | fuel + 1, .mk cls, st => do
    let (code, st) ← runListsF fuel cls 0 st
    some (code, { st with lastExitCode := code })

/-- The command-list loop shared by runProgram, runBraceGroup,
runSubshell, the if/for/loop/case bodies: run each list, stop early when
running was cleared. -/
def runListsF : Nat → List CmdListAst → Int → EvalSt → Option (Int × EvalSt)
  | 0, _, _, _ => none
  | _ + 1, [], code, st => some (code, st)
  | fuel + 1, cl :: rest, _, st => do
    let (c, st) ← runCommandListF fuel cl st
    if st.running then runListsF fuel rest c st else some (c, st)

/-- The condition loops of runIfClause and runLoopClause: every list
runs, with no running check. -/
def runCondListsF : Nat → List CmdListAst → Int → EvalSt → Option (Int × EvalSt)
  | 0, _, _, _ => none
  | _ + 1, [], code, st => some (code, st)
  | fuel + 1, cl :: rest, _, st => do
    let (c, st) ← runCommandListF fuel cl st
    runCondListsF fuel rest c st

/-- Shell.runCommandList (lines 246-256): the async flag is parsed but
execution is synchronous. -/
def runCommandListF : Nat → CmdListAst → EvalSt → Option (Int × EvalSt)
  | 0, _, _ => none
  | fuel + 1, .mk aol _async, st => runAndOrListF fuel aol st

/-- Shell.runAndOrList (lines 261-277). -/
def runAndOrListF : Nat → AndOrAst → EvalSt → Option (Int × EvalSt)
  | 0, _, _ => none
  | fuel + 1, .mk first rest, st => do
    let (code, st) ← runPipelineF fuel first st
    runAndOrRestF fuel rest code st

/-- The short-circuit loop of runAndOrList. -/
def runAndOrRestF : Nat → List (AndOrTy × PipelineAst) → Int → EvalSt →
    Option (Int × EvalSt)
  | 0, _, _, _ => none
  | _ + 1, [], code, st => some (code, st)
  | fuel + 1, (ty, p) :: rest, code, st =>
    match ty with
    | .and =>
      if code = 0 then do
        let (c, st) ← runPipelineF fuel p st
        runAndOrRestF fuel rest c st
      else runAndOrRestF fuel rest code st
    | .or =>
      if code ≠ 0 then do
        let (c, st) ← runPipelineF fuel p st
        runAndOrRestF fuel rest c st
      else runAndOrRestF fuel rest code st

/-- Shell.runPipeline (lines 282-320). -/
def runPipelineF : Nat → PipelineAst → EvalSt → Option (Int × EvalSt)
  | 0, _, _ => none
  | fuel + 1, .mk negation cmds, st => do
    let (code, st) ←
      match cmds with
      | [c] => runCommandF fuel c st
      | _ => do
        let (code, st) ← runPipeSeqF fuel cmds "" 0 st
        some (code, { st with pipeBuffer := "" })
    if negation then
      some (if code = 0 then 1 else 0, st)
    else some (code, st)

/-- The stage loop of a multi-command pipeline: every non-final stage's
stdout is captured into a fresh buffer that becomes the next stage's
pipe input; the saved stdout binding is restored after every stage. -/
def runPipeSeqF : Nat → List CmdAst → String → Int → EvalSt → Option (Int × EvalSt)
  | 0, _, _, _, _ => none
  | _ + 1, [], input, code, st =>
    let _ := input
    some (code, st)
  | fuel + 1, c :: rest, input, _, st =>
    let savedStdout := st.stdout
    if rest.isEmpty then do
      let st := { st with pipeBuffer := input }
      let (code, st) ← runCommandF fuel c st
      let st := { st with stdout := savedStdout }
      runPipeSeqF fuel rest "" code st
    else do
      let (i, st) := allocBuf st
      let st := { st with stdout := .buf i, pipeBuffer := input }
      let (code, st) ← runCommandF fuel c st
      let st := { st with stdout := savedStdout }
      runPipeSeqF fuel rest (st.bufs.getD i "") code st

/-- Shell.runCommand (lines 325-345): dispatch on the command type; the
switch has no Function case, so a function-definition node falls to the
default unsupported-type branch. -/
def runCommandF : Nat → CmdAst → EvalSt → Option (Int × EvalSt)
  | 0, _, _ => none
  | fuel + 1, cmd, st =>
    match cmd with
    | .simple name args redirects assignments =>
      runSimpleCommandF fuel name args redirects assignments st
    | .braceGroup body => runBraceGroupF fuel body st
    | .subshell body => runSubshellF fuel body st
    | .ifClause cond body els => runIfF fuel cond body els st
    | .forClause name hasIn words body => runForF fuel name hasIn words body st
    | .loopClause isUntil cond body => runLoopClF fuel isUntil cond body st
    | .caseClause w items => runCaseF fuel w items st
    | .funcDef _ _ =>
      some (1, writeChan st st.stderr "mrsh: unsupported command type: function\n")

/-- Shell.runSimpleCommand (lines 350-477). -/
def runSimpleCommandF : Nat → Option WordAst → List WordAst → List RedirAst →
    List AssignAst → EvalSt → Option (Int × EvalSt)
  | 0, _, _, _, _, _ => none
  | fuel + 1, name?, args, redirects, assignments, st => do
    -- apply assignments (values always expanded; committed only with no name)
    let st ← runAssignsF fuel assignments name?.isSome st
    match name? with
    | none => some (0, st)
    | some nameW => do
      let (cmdName, st) ← expandWordF fuel nameW st
      -- alias: textual re-execution (an empty alias value is falsy)
      match mget st.aliases cmdName with
      | some aliasValue =>
        if aliasValue ≠ "" then do
          let (argStrs, st) ← expandSeqF fuel args st
          executeF fuel (aliasValue ++ " " ++ String.intercalate " " argStrs) st
        else
          runSimpleTailF fuel cmdName args redirects st
      | none =>
        runSimpleTailF fuel cmdName args redirects st

/-- runSimpleCommand after the alias check: function lookup, argument
expansion, redirect setup, command invocation, redirect commit, stream
restore. -/
def runSimpleTailF : Nat → String → List WordAst → List RedirAst → EvalSt →
    Option (Int × EvalSt)
  | 0, _, _, _, _ => none
  | fuel + 1, cmdName, args, redirects, st =>
    match fget st.functions cmdName with
    | some func => runCommandF fuel func st
    | none => do
      let (argStrs, st) ← expandSeqF fuel args st
      let savedStdout := st.stdout
      let savedStderr := st.stderr
      match ← runRedirsF fuel redirects st none false none with
      | .exited code st' => some (code, st')
      | .cont st redirectFile appendMode bufId => do
        let (exitCode, st) :=
          match registryGet st cmdName with
          | some virtualCmd =>
            let parsedArgs := parseArgs virtualCmd argStrs
            let ctx : ActionCtx := ⟨parsedArgs, st.pipeBuffer, st.env, st.cwd⟩
            let res := virtualCmd.action ctx
            (res.code, applyAction st res)
          | none =>
            (127, writeChan st st.stderr ("mrsh: " ++ cmdName ++ ": command not found\n"))
        let st :=
          match redirectFile with
          | some f =>
            let redirectOutput := match bufId with
              | some i => st.bufs.getD i ""
              | none => ""
            if appendMode then { st with fsys := appendFileSyncM st.fsys f redirectOutput }
            else { st with fsys := writeFileSyncM st.fsys f redirectOutput }
          | none => st
        let st := { st with stdout := savedStdout, stderr := savedStderr }
        some (exitCode, { st with lastExitCode := exitCode })

/-- The assignment loop of runSimpleCommand (lines 355-361). -/
def runAssignsF : Nat → List AssignAst → Bool → EvalSt → Option EvalSt
  | 0, _, _, _ => none
  | _ + 1, [], _, st => some st
  | fuel + 1, .mk name value :: rest, hasName, st => do
    let (v, st) ← expandWordF fuel value st
    let st := if hasName then st else { st with env := mset st.env name v }
    runAssignsF fuel rest hasName st

/-- The redirect-setup loop of runSimpleCommand (lines 394-426).  All
output redirects of one invocation append to the one redirectOutput
buffer (allocated at first use); >&2 copies the current stderr binding
into stdout; a < of a missing file reports the error and returns 1
directly out of the loop. -/
def runRedirsF : Nat → List RedirAst → EvalSt → Option String → Bool → Option Nat →
    Option RedirOut
  | 0, _, _, _, _, _ => none
  | _ + 1, [], st, file, append, bufId => some (.cont st file append bufId)
  | fuel + 1, .mk _ op nameW :: rest, st, file, append, bufId => do
    let (target, st) ← expandWordF fuel nameW st
    match op with
    | .great | .clobber =>
      let (i, st) := match bufId with
        | some i => (i, st)
        | none => allocBuf st
      runRedirsF fuel rest { st with stdout := .buf i }
        (some (resolvePath st target)) false (some i)
    | .dgreat =>
      let (i, st) := match bufId with
        | some i => (i, st)
        | none => allocBuf st
      runRedirsF fuel rest { st with stdout := .buf i }
        (some (resolvePath st target)) true (some i)
    | .greatAnd =>
      if target = "1" then
        runRedirsF fuel rest st file append bufId
      else if target = "2" then
        runRedirsF fuel rest { st with stdout := st.stderr } file append bufId
      else
        runRedirsF fuel rest st file append bufId
    | .less =>
      match readFileSyncM st.fsys (resolvePath st target) with
      | some content =>
        runRedirsF fuel rest { st with pipeBuffer := content } file append bufId
      | none =>
        some (.exited 1
          (writeChan st st.stderr ("mrsh: " ++ target ++ ": No such file or directory\n")))
    | _ =>
      runRedirsF fuel rest st file append bufId

/-- Shell.runBraceGroup (lines 482-489). -/
def runBraceGroupF : Nat → List CmdListAst → EvalSt → Option (Int × EvalSt)
  | 0, _, _ => none
  | fuel + 1, body, st => runListsF fuel body 0 st

/-- Shell.runSubshell (lines 494-510): snapshot env and cwd, run the
body, restore both (the state.cwd mirror is not restored). -/
def runSubshellF : Nat → List CmdListAst → EvalSt → Option (Int × EvalSt)
  | 0, _, _ => none
  | fuel + 1, body, st =>
    let savedEnv := st.env
    let savedCwd := st.cwd
    (runListsF fuel body 0 st).map
      (fun (p : Int × EvalSt) => (p.1, { p.2 with env := savedEnv, cwd := savedCwd }))

/-- Shell.runIfClause (lines 515-536). -/
def runIfF : Nat → List CmdListAst → List CmdListAst → Option CmdAst → EvalSt →
    Option (Int × EvalSt)
  | 0, _, _, _, _ => none
  | fuel + 1, condition, body, elseClause, st => do
    let (conditionResult, st) ← runCondListsF fuel condition 0 st
    if conditionResult = 0 then
      runListsF fuel body 0 st
    else
      match elseClause with
      | some els => runCommandF fuel els st
      | none => some (0, st)

/-- Shell.runForClause (lines 541-558): without `in`, the placeholder
word list; the outer loop has no running check. -/
def runForF : Nat → String → Bool → List WordAst → List CmdListAst → EvalSt →
    Option (Int × EvalSt)
  | 0, _, _, _, _, _ => none
  | fuel + 1, name, hasIn, words, body, st => do
    let (vals, st) ←
      if hasIn then expandSeqF fuel words st
      else some (["$1", "$2", "$3"], st)
    runForSeqF fuel name vals body 0 st

/-- The value loop of runForClause. -/
def runForSeqF : Nat → String → List String → List CmdListAst → Int → EvalSt →
    Option (Int × EvalSt)
  | 0, _, _, _, _, _ => none
  | _ + 1, _, [], _, code, st => some (code, st)
  | fuel + 1, name, w :: rest, body, code, st => do
    let st := { st with env := mset st.env name w }
    let (c, st) ← runListsF fuel body code st
    runForSeqF fuel name rest body c st

/-- Shell.runLoopClause (lines 563-588) via its while(running) loop. -/
def runLoopClF : Nat → Bool → List CmdListAst → List CmdListAst → EvalSt →
    Option (Int × EvalSt)
  | 0, _, _, _, _ => none
  | fuel + 1, isUntil, condition, body, st => runLoopIterF fuel isUntil condition body 0 st

/-- One while(running) iteration of runLoopClause. -/
def runLoopIterF : Nat → Bool → List CmdListAst → List CmdListAst → Int → EvalSt →
    Option (Int × EvalSt)
  | 0, _, _, _, _, _ => none
  | fuel + 1, isUntil, condition, body, code, st =>
    if ¬st.running then some (code, st)
    else do
      let (conditionResult, st) ← runCondListsF fuel condition 0 st
      let shouldContinue := if isUntil then conditionResult ≠ 0 else conditionResult = 0
      if ¬shouldContinue then some (code, st)
      else do
        let (c, st) ← runListsF fuel body code st
        runLoopIterF fuel isUntil condition body c st

/-- Shell.runCaseClause (lines 593-620). -/
def runCaseF : Nat → WordAst → List CaseItemAst → EvalSt → Option (Int × EvalSt)
  | 0, _, _, _ => none
  | fuel + 1, w, items, st => do
    let (word, st) ← expandWordF fuel w st
    runCaseItemsF fuel word items st

/-- The item loop of runCaseClause: the first item with a matching
pattern runs its body and returns; with none, the initial 0. -/
def runCaseItemsF : Nat → String → List CaseItemAst → EvalSt → Option (Int × EvalSt)
  | 0, _, _, _ => none
  | _ + 1, _, [], st => some (0, st)
  | fuel + 1, word, .mk patterns body :: rest, st => do
    match ← runCasePatsF fuel word patterns body st with
    | .inl res => some res
    | .inr st => runCaseItemsF fuel word rest st

/-- The pattern loop of one case item: each pattern is expanded (side
effects kept even without a match) and tested as an anchored glob. -/
def runCasePatsF : Nat → String → List WordAst → List CmdListAst → EvalSt →
    Option ((Int × EvalSt) ⊕ EvalSt)
  | 0, _, _, _, _ => none
  | _ + 1, _, [], _, st => some (.inr st)
  | fuel + 1, word, p :: prest, body, st => do
    let (patternStr, st) ← expandWordF fuel p st
    if fullMatch (glob2re patternStr.data) word.data then do
      let (c, st) ← runListsF fuel body 0 st
      some (.inl (c, st))
    else
      runCasePatsF fuel word prest body st

/-- Shell.expandWord (lines 625-668). -/
def expandWordF : Nat → WordAst → EvalSt → Option (String × EvalSt)
  | 0, _, _ => none
  | fuel + 1, w, st =>
    match w with
    | .str v _ _ => some (v, st)
    | .param name op colon arg => some (expandParameter st name op colon arg)
    | .list children _ => do
      let (parts, st) ← expandSeqF fuel children st
      some (String.join parts, st)
    | .cmdSub prog _ =>
      match prog with
      | some program => do
        let savedStdout := st.stdout
        let (i, st) := allocBuf st
        let st := { st with stdout := .buf i }
        let (_, st) ← runProgramF fuel program st
        let st := { st with stdout := savedStdout }
        some (trimOneNl (st.bufs.getD i ""), st)
      | none => some ("", st)
    | .arith body => do
      let (expr, st) ← expandWordF fuel body st
      some (toString (evaluateArithmetic st expr), st)

/-- Sequential expansion of a word list (the Promise.all(map(expandWord))
sites; the synchronous parts of the expansions run left to right). -/
def expandSeqF : Nat → List WordAst → EvalSt → Option (List String × EvalSt)
  | 0, _, _ => none
  | _ + 1, [], st => some ([], st)
  | fuel + 1, w :: rest, st => do
    let (v, st) ← expandWordF fuel w st
    let (vs, st) ← expandSeqF fuel rest st
    some (v :: vs, st)

end

/-! ## Concrete fixtures for the theorems -/

/-- A handler with no effects that exits 0 (the behaviour of the true
builtin, src/builtins/true.ts). -/
def noEffect : ActionRes := ⟨0, "", "", [], [], none, none⟩

/-- A registered command "t" whose handler ignores its arguments and
returns 0. -/
def trueCmd : VCmd := ⟨"t", [], [], [], fun _ => noEffect⟩

/-- A fresh shell state with the constructor's default environment, the
host streams bound, an empty filesystem and an empty registry. -/
def baseSt : EvalSt :=
  ⟨[("HOME", "/home/user"), ("PWD", "/home/user"), ("PATH", "/bin:/usr/bin"),
    ("PS1", "$ ")],
   "/home/user", "/home/user", [], [], 0, true, "", .host, .hostErr, "", "",
   [], [], [], []⟩

/-- The redirect list of the command `foo > f < missing`. -/
def redirsGreatLess : List RedirAst :=
  [.mk (-1) .great (createWordString "f"), .mk (-1) .less (createWordString "missing")]

/-- The state with registry [t] for the expansion-error run. -/
def qmarkSt : EvalSt := { baseSt with cmds := [trueCmd] }

/-- The word ${X:?msg}. -/
def qmarkWord : WordAst := .param "X" .qmark true (some (createWordString "msg"))

/-- A state in which V holds "aXbXc". -/
def patSt : EvalSt := { baseSt with env := [("V", "aXbXc")] }

/-- A state in which X is set to the empty string. -/
def emptyXSt : EvalSt := { baseSt with env := [("X", "")] }

/-- A state whose alias table maps x to "x". -/
def selfAliasSt : EvalSt := { baseSt with aliases := [("x", "x")] }

/-- The subshell body `X=1`. -/
def assignBody : List CmdListAst :=
  [.mk (.mk (.mk false [.simple none [] [] [.mk "X" (createWordString "1")]]) []) false]

/-- The AST that parsing "x" (or "x ") produces, stage by stage. -/
def xWord : WordAst := createWordString "x"

def xSimple : CmdAst := .simple (some xWord) [] [] []

def xPipe : PipelineAst := .mk false [xSimple]

def xAol : AndOrAst := .mk xPipe []

def xCl : CmdListAst := .mk xAol false

def xProg : ProgramAst := .mk [xCl]

/-! ## Helper lemmas -/

theorem get_drop_cons (l : List Char) (n : Nat) (c : Char)
    (h : l.get? n = some c) : l.drop n = c :: l.drop (n + 1) := by
  induction l generalizing n with
  | nil => simp at h
  | cons d r ih =>
    cases n with
    | zero => simp_all
    | succ m =>
      simp only [List.get?_cons_succ] at h
      simpa using ih m h

theorem head_drop (l : List Char) (n : Nat) : (l.drop n).head? = l.get? n := by
  induction l generalizing n with
  | nil => simp
  | cons d r ih =>
    cases n with
    | zero => simp
    | succ m => simp [ih m]

/-! ## C1: stream restoration on the failed `<` path -/

/-- C1: the claim that the stdout binding in effect after runSimpleCommand
equals the binding in effect before it, on the path where a `<` target is
missing after a `>` redirect, fails on the code: `foo > f < missing` from
a fresh state returns 1 with stdout left bound to the redirect capture
buffer (the early return at shell.ts line 422 skips the restore at line
472), while the error message is reported.  This is the failing input of
the code_bug record. -/
theorem less_redirect_failure_keeps_stdout_rebound :
    ∃ st', runSimpleCommandF 9 (some (createWordString "foo")) [] redirsGreatLess []
        baseSt = some (1, st') ∧
      baseSt.stdout = Chan.host ∧
      st'.stdout = Chan.buf 0 ∧
      st'.stdout ≠ baseSt.stdout ∧
      st'.hostErr = "mrsh: missing: No such file or directory\n" :=
  ⟨_, rfl, rfl, rfl, by decide, rfl⟩

/-! ## C2: ${name:?msg} error handling -/

/-- C2 counterexample: the claim that the simple command containing a
failed ${X:?msg} expansion returns a nonzero exit code is false: with X
unset, running `t ${X:?msg}` (t a command that exits 0) writes the error
to stderr yet returns exit code 0. -/
theorem qmark_error_command_exits_zero :
    ∃ st', runSimpleCommandF 9 (some (createWordString "t")) [qmarkWord] [] [] qmarkSt
        = some (0, st') ∧
      st'.hostErr = "mrsh: X: msg\n" :=
  ⟨_, rfl, rfl⟩

/-- C2 amended: with the parameter unset or empty (getVariable collapses
both to ""), ${name:?msg} writes "mrsh: name: msg" and a newline through
the current stderr binding and the expansion yields the empty string;
the containing command's exit code is whatever the command itself
returns. -/
theorem qmark_expansion_amended (st : EvalSt) (name : String) (colon : Bool)
    (argW : WordAst) (h : getVariable st name = "") :
    expandParameter st name .qmark colon (some argW) =
      ("", writeChan st st.stderr ("mrsh: " ++ name ++ ": " ++ expandWordSync argW ++ "\n")) := by
  simp [expandParameter, h]

theorem qmark_expansion_amended_witness :
    expandParameter baseSt "Y" .qmark true (some (createWordString "oops")) =
      ("", writeChan baseSt baseSt.stderr "mrsh: Y: oops\n") :=
  qmark_expansion_amended baseSt "Y" true (createWordString "oops") rfl

/-! ## C5: Minus and the colon flag -/

/-- C5 counterexample: with X present and bound to the empty string,
${X-d} (no colon) expands to "d", not to the empty string the claim
requires. -/
theorem minus_empty_gives_default :
    expandParameter emptyXSt "X" .minus false (some (createWordString "d"))
      = ("d", emptyXSt) ∧ ("d" : String) ≠ "" :=
  ⟨rfl, by decide⟩

/-- C5 amended: the code does not distinguish unset from empty for
Minus: getVariable collapses both to "", the `!value` test already
covers the empty string, so the colon flag has no effect and the default
is taken whenever the value collapses to "". -/
theorem minus_colon_has_no_effect (st : EvalSt) (name : String) (c₁ c₂ : Bool)
    (arg : Option WordAst) :
    expandParameter st name .minus c₁ arg = expandParameter st name .minus c₂ arg ∧
    (getVariable st name = "" →
      expandParameter st name .minus c₁ arg = ((arg.map expandWordSync).getD "", st)) := by
  constructor
  · by_cases h : getVariable st name = "" <;> simp [expandParameter, h]
  · intro h; simp [expandParameter, h]

theorem minus_colon_has_no_effect_witness :
    expandParameter emptyXSt "X" .minus true (some (createWordString "d"))
      = expandParameter emptyXSt "X" .minus false (some (createWordString "d")) ∧
    expandParameter emptyXSt "X" .minus true (some (createWordString "d"))
      = ("d", emptyXSt) :=
  ⟨(minus_colon_has_no_effect emptyXSt "X" true false (some (createWordString "d"))).1,
   (minus_colon_has_no_effect emptyXSt "X" true false (some (createWordString "d"))).2 rfl⟩

/-! ## C6: arithmetic division rounding -/

/-- C6 counterexample: $(( -7 / 2 )) expands to "-4" (Math.floor of
-3.5), not to the "-3" truncation toward zero would give. -/
theorem arith_div_floors_not_truncates :
    expandWordF 3 (.arith (createWordString "-7 / 2")) baseSt = some ("-4", baseSt) ∧
    ("-4" : String) ≠ "-3" :=
  ⟨rfl, by decide⟩

/-- C6 amended: the sanitized expression is evaluated with exact (JS
number) division and Math.floor applied once to the final result, so
division rounds toward negative infinity and intermediate values may be
non-integers; the expansion is environment-independent when no $name
occurs. -/
theorem arith_floor_semantics (st : EvalSt) :
    evaluateArithmetic st "-7 / 2" = -4 ∧
    evaluateArithmetic st "7 / 2" = 3 ∧
    evaluateArithmetic st "7 / -2" = -4 ∧
    evaluateArithmetic st "-7 / -2" = 3 ∧
    evaluateArithmetic st "1 / 2 + 1 / 2" = 1 ∧
    ∀ (fuel : Nat) (st' : EvalSt),
      expandWordF (fuel + 2) (.arith (createWordString "-7 / 2")) st' = some ("-4", st') :=
  ⟨rfl, rfl, rfl, rfl, rfl, fun _ _ => rfl⟩

/-! ## C7: subshell isolation -/

/-- C7: whenever runSubshell returns, the resulting env and cwd equal
the entry env and cwd whatever the body did, and the exit code is the
same one running the body as a plain command-list sequence (a brace
group) yields - the last statement's code. -/
theorem subshell_restores_env_cwd (fuel : Nat) (body : List CmdListAst) (st : EvalSt)
    (c : Int) (st' : EvalSt) (h : runSubshellF fuel body st = some (c, st')) :
    st'.env = st.env ∧ st'.cwd = st.cwd ∧
    (runBraceGroupF fuel body st).map Prod.fst = some c := by
  cases fuel with
  | zero => simp [runSubshellF] at h
  | succ n =>
    simp only [runSubshellF] at h
    cases hb : runListsF n body 0 st with
    | none => rw [hb] at h; simp at h
    | some p =>
      rw [hb] at h
      simp only [Option.map_some'] at h
      obtain ⟨hc, hst⟩ := Prod.mk.injEq .. ▸ Option.some.injEq .. ▸ h
      subst hc
      simp [runBraceGroupF, hb, ← hst]

theorem subshell_restores_env_cwd_witness :
    ∃ c st', runSubshellF 12 assignBody baseSt = some (c, st') ∧
      st'.env = baseSt.env ∧ st'.cwd = baseSt.cwd :=
  ⟨0, _, rfl, (subshell_restores_env_cwd 12 assignBody baseSt 0 _ rfl).1,
    (subshell_restores_env_cwd 12 assignBody baseSt 0 _ rfl).2.1⟩

/-! ## C9: command substitution is parsed without a program and expands
to the empty string -/

/-- C9: a $( that does not open an arithmetic $(( yields a Command word
with no attached program; every backquote word does too; and the
evaluator expands a Command word with no program to the empty string
without running anything. -/
theorem cmdsub_no_program_expands_empty :
    (∀ (v : List Char) (start : Nat),
      v.get? (start + 1) = some '(' → v.get? (start + 2) ≠ some '(' →
      (parseParameterFromString v start).1 = WordAst.cmdSub none false) ∧
    (∀ (v : List Char) (start : Nat),
      (parseBackquoteFromString v start).1 = WordAst.cmdSub none true) ∧
    (∀ (fuel : Nat) (st : EvalSt) (bq : Bool),
      expandWordF (fuel + 1) (.cmdSub none bq) st = some ("", st)) := by
  refine ⟨?_, fun _ _ => rfl, fun _ _ _ => rfl⟩
  intro v start h1 h2
  have hd : v.drop (start + 1) = '(' :: v.drop (start + 2) := get_drop_cons _ _ _ h1
  simp only [parseParameterFromString, hd]
  cases hr : v.drop (start + 2) with
  | nil => simp [pParamTail]
  | cons c rest =>
    have hc : c ≠ '(' := by
      intro e
      apply h2
      rw [← head_drop, hr, e]
      rfl
    simp only [pParamTail]
    split
    · rename_i heq
      rw [List.cons.injEq] at heq
      exact absurd heq.1 hc
    · rfl

/-! ## C10: assignment values are literal -/

theorem jsIndexOf_append (l r : List Char) (h : '=' ∉ l) :
    jsIndexOf '=' (l ++ '=' :: r) = some l.length := by
  induction l with
  | nil => simp [jsIndexOf]
  | cons d l' ih =>
    have hd : d ≠ '=' := fun e => h (e ▸ List.mem_cons_self d l')
    have h' : '=' ∉ l' := fun m => h (List.mem_cons_of_mem d m)
    simp [jsIndexOf, hd, ih h']

theorem validName_no_eq (s : String) (h : validName s = true) : '=' ∉ s.data := by
  intro hm
  unfold validName at h
  cases hd : s.data with
  | nil => rw [hd] at h; exact absurd h (by decide)
  | cons c rest =>
    rw [hd] at h hm
    simp only [Bool.decide_and, Bool.decide_or, Bool.and_eq_true, decide_eq_true_eq,
      Bool.or_eq_true] at h
    rcases List.mem_cons.mp hm with he | he
    · subst he
      rcases h.1 with ⟨h1, h2⟩ | ⟨h1, h2⟩ | h1 <;> revert h1 <;> decide
    · have := (List.all_eq_true.mp h.2) _ he
      exact absurd this (by decide)

/-- C10: an assignment token name=text (name a valid identifier) is
split at its first '=', the raw remainder becoming a plain String word;
executing the assignment with no command name stores exactly those
characters (no expansion, no quote removal) and returns 0. -/
theorem assignment_value_is_literal (name text : String) (h : validName name = true) :
    parseAssignmentValue (name ++ "=" ++ text)
      = some (.mk name (createWordString text)) ∧
    ∀ (fuel : Nat) (st : EvalSt),
      runSimpleCommandF (fuel + 3) none [] [] [.mk name (createWordString text)] st
        = some (0, { st with env := mset st.env name text }) := by
  constructor
  · have hne : '=' ∉ name.data := validName_no_eq name h
    have hdata : (name ++ "=" ++ text).data = name.data ++ '=' :: text.data := by
      simp [String.data_append]
    obtain ⟨m, hm⟩ : ∃ m, name.data.length = m + 1 := by
      cases hd : name.data with
      | nil =>
        exfalso
        unfold validName at h
        rw [hd] at h
        exact absurd h (by decide)
      | cons a b => exact ⟨b.length, by simp⟩
    have hidx : jsIndexOf '=' ((name ++ "=" ++ text).data) = some (m + 1) := by
      rw [hdata, jsIndexOf_append _ _ hne, hm]
    have htake : ((name ++ "=" ++ text).data).take (m + 1) = name.data := by
      rw [hdata, ← hm, List.take_left]
    have hdrop : ((name ++ "=" ++ text).data).drop (m + 1 + 1) = text.data := by
      rw [hdata, ← hm, List.append_cons,
        show name.data.length + 1 = (name.data ++ ['=']).length by simp,
        List.drop_left]
    have hmkn : String.mk name.data = name := rfl
    have hmkt : String.mk text.data = text := rfl
    unfold parseAssignmentValue
    simp only [hidx, htake, hdrop, hmkn, hmkt, h, if_true]
  · intro fuel st
    rfl

theorem assignment_value_is_literal_witness :
    parseAssignmentValue "X=$Y" = some (.mk "X" (createWordString "$Y")) ∧
    runSimpleCommandF 3 none [] [] [.mk "X" (createWordString "$Y")] baseSt
      = some (0, { baseSt with env := mset baseSt.env "X" "$Y" }) :=
  ⟨(assignment_value_is_literal "X" "$Y" (by decide)).1,
   (assignment_value_is_literal "X" "$Y" (by decide)).2 0 baseSt⟩

/-! ## C4: alias resolution recurses without bound -/

/-- Running `x ` (what the alias branch re-executes) under the alias
table x -> "x" exhausts any fuel: the cycle
execute -> runProgram -> ... -> runSimpleCommand -> execute
re-enters on the same source and state, so every stage of the cycle
comes out of fuel for every fuel. -/
theorem selfalias_exhausts_all_fuel : ∀ n : Nat,
    executeF (n + 1) "x " selfAliasSt = none ∧
    runProgramF (n + 1) xProg selfAliasSt = none ∧
    runListsF (n + 1) [xCl] 0 selfAliasSt = none ∧
    runCommandListF (n + 1) xCl selfAliasSt = none ∧
    runAndOrListF (n + 1) xAol selfAliasSt = none ∧
    runPipelineF (n + 1) xPipe selfAliasSt = none ∧
    runCommandF (n + 1) xSimple selfAliasSt = none ∧
    runSimpleCommandF (n + 1) (some xWord) [] [] [] selfAliasSt = none := by
  intro n
  induction n with
  | zero => exact ⟨rfl, rfl, rfl, rfl, rfl, rfl, rfl, rfl⟩
  | succ m ih =>
    obtain ⟨hA, hB, hC, hD, hE, hF, hG, hH⟩ := ih
    have hH' : runSimpleCommandF (m + 2) (some xWord) [] [] [] selfAliasSt = none := hA
    have hG' : runCommandF (m + 2) xSimple selfAliasSt = none := hH
    have hF' : runPipelineF (m + 2) xPipe selfAliasSt = none := by
      show runPipelineF (m + 2) (.mk false [xSimple]) selfAliasSt = none
      simp only [runPipelineF]
      rw [hG]
      rfl
    have hE' : runAndOrListF (m + 2) xAol selfAliasSt = none := by
      show runAndOrListF (m + 2) (.mk xPipe []) selfAliasSt = none
      simp only [runAndOrListF]
      rw [hF]
      rfl
    have hD' : runCommandListF (m + 2) xCl selfAliasSt = none := hE
    have hC' : runListsF (m + 2) [xCl] 0 selfAliasSt = none := by
      simp only [runListsF]
      rw [hD]
      rfl
    have hB' : runProgramF (m + 2) xProg selfAliasSt = none := by
      show runProgramF (m + 2) (.mk [xCl]) selfAliasSt = none
      simp only [runProgramF]
      rw [hC]
      rfl
    have hA' : executeF (m + 2) "x " selfAliasSt = none := hB
    exact ⟨hA', hB', hC', hD', hE', hF', hG', hH'⟩

/-- C4: the claim that execute terminates for every source and alias
table is false on the code: alias resolution re-executes the whole
command with no single-pass guard, so with alias x = "x" the evaluation
of execute("x") runs out of any amount of fuel - the recursion
execute -> runSimpleCommand -> execute never bottoms out. -/
theorem selfalias_execute_never_terminates : ∀ n : Nat,
    executeF n "x" selfAliasSt = none := by
  intro n
  match n with
  | 0 => rfl
  | 1 => rfl
  | m + 2 => exact (selfalias_exhausts_all_fuel m).2.1

/-! ## C3: pattern-strip matching lemmas

The canonical wrappers fullMatch and reMatchEnd fix the fuel at
pattern-length + string-length + 1; the congruence lemmas below show any
sufficient fuel computes the same answer, giving clean unfolding
equations, from which soundness (the consumed prefix matches) and
completeness (none means no prefix matches) follow. -/

theorem fullMatchF_congr : ∀ (n m : Nat) (p : List RTok) (s : List Char),
    p.length + s.length < n → p.length + s.length < m →
    fullMatchF n p s = fullMatchF m p s := by
  intro n
  induction n with
  | zero => intro m p s hn _; omega
  | succ n ih =>
    intro m p s hn hm
    cases m with
    | zero => omega
    | succ m =>
      cases p with
      | nil => cases s <;> rfl
      | cons t p' =>
        cases t with
        | lit c =>
          cases s with
          | nil => rfl
          | cons d s' =>
            simp only [List.length_cons] at hn hm
            show (decide (c = d) && fullMatchF n p' s')
              = (decide (c = d) && fullMatchF m p' s')
            rw [ih m p' s' (by omega) (by omega)]
        | anyOne =>
          cases s with
          | nil => rfl
          | cons d s' =>
            simp only [List.length_cons] at hn hm
            show fullMatchF n p' s' = fullMatchF m p' s'
            exact ih m p' s' (by omega) (by omega)
        | anyStar =>
          cases s with
          | nil =>
            simp only [List.length_cons, List.length_nil] at hn hm
            show (fullMatchF n p' [] || false) = (fullMatchF m p' [] || false)
            rw [ih m p' [] (by simp; omega) (by simp; omega)]
          | cons d s' =>
            simp only [List.length_cons] at hn hm
            show (fullMatchF n p' (d :: s') || fullMatchF n (.anyStar :: p') s')
              = (fullMatchF m p' (d :: s') || fullMatchF m (.anyStar :: p') s')
            rw [ih m p' (d :: s')
                (by simp only [List.length_cons]; omega)
                (by simp only [List.length_cons]; omega),
              ih m (.anyStar :: p') s'
                (by simp only [List.length_cons]; omega)
                (by simp only [List.length_cons]; omega)]

theorem fullMatch_lit_cons (c : Char) (p : List RTok) (d : Char) (s : List Char) :
    fullMatch (.lit c :: p) (d :: s) = (decide (c = d) && fullMatch p s) := by
  show (decide (c = d)
        && fullMatchF ((RTok.lit c :: p).length + (d :: s).length) p s)
    = (decide (c = d) && fullMatch p s)
  rw [fullMatchF_congr ((RTok.lit c :: p).length + (d :: s).length)
    (p.length + s.length + 1) p s
    (by simp only [List.length_cons]; omega) (by omega)]
  rfl

theorem fullMatch_one_cons (p : List RTok) (d : Char) (s : List Char) :
    fullMatch (.anyOne :: p) (d :: s) = fullMatch p s := by
  show fullMatchF ((RTok.anyOne :: p).length + (d :: s).length) p s = fullMatch p s
  rw [fullMatchF_congr ((RTok.anyOne :: p).length + (d :: s).length)
    (p.length + s.length + 1) p s
    (by simp only [List.length_cons]; omega) (by omega)]
  rfl

theorem fullMatch_star_nil (p : List RTok) :
    fullMatch (.anyStar :: p) [] = fullMatch p [] := by
  show (fullMatchF ((RTok.anyStar :: p).length + ([] : List Char).length) p []
        || false)
    = fullMatch p []
  rw [fullMatchF_congr ((RTok.anyStar :: p).length + ([] : List Char).length)
    (p.length + ([] : List Char).length + 1) p []
    (by simp only [List.length_cons, List.length_nil]; omega)
    (by simp only [List.length_nil]; omega),
    Bool.or_false]
  rfl

theorem fullMatch_star_cons (p : List RTok) (d : Char) (s : List Char) :
    fullMatch (.anyStar :: p) (d :: s)
      = (fullMatch p (d :: s) || fullMatch (.anyStar :: p) s) := by
  show (fullMatchF ((RTok.anyStar :: p).length + (d :: s).length) p (d :: s)
        || fullMatchF ((RTok.anyStar :: p).length + (d :: s).length)
             (RTok.anyStar :: p) s)
    = (fullMatch p (d :: s) || fullMatch (.anyStar :: p) s)
  rw [fullMatchF_congr ((RTok.anyStar :: p).length + (d :: s).length)
    (p.length + (d :: s).length + 1) p (d :: s)
    (by simp only [List.length_cons]; omega)
    (by simp only [List.length_cons]; omega),
    fullMatchF_congr ((RTok.anyStar :: p).length + (d :: s).length)
    ((RTok.anyStar :: p).length + s.length + 1) (RTok.anyStar :: p) s
    (by simp only [List.length_cons]; omega)
    (by simp only [List.length_cons]; omega)]
  rfl

theorem fullMatch_star_of (p : List RTok) (s : List Char)
    (h : fullMatch p s = true) : fullMatch (.anyStar :: p) s = true := by
  cases s with
  | nil => rw [fullMatch_star_nil]; exact h
  | cons d s' => rw [fullMatch_star_cons, h, Bool.true_or]

theorem reMatchEndF_congr : ∀ (n m : Nat) (p : List RTok) (s : List Char),
    p.length + s.length < n → p.length + s.length < m →
    reMatchEndF n p s = reMatchEndF m p s := by
  intro n
  induction n with
  | zero => intro m p s hn _; omega
  | succ n ih =>
    intro m p s hn hm
    cases m with
    | zero => omega
    | succ m =>
      cases p with
      | nil => rfl
      | cons t p' =>
        cases t with
        | lit c =>
          cases s with
          | nil => rfl
          | cons d s' =>
            simp only [List.length_cons] at hn hm
            show (if c = d then (reMatchEndF n p' s').map (· + 1) else none)
              = (if c = d then (reMatchEndF m p' s').map (· + 1) else none)
            rw [ih m p' s' (by omega) (by omega)]
        | anyOne =>
          cases s with
          | nil => rfl
          | cons d s' =>
            simp only [List.length_cons] at hn hm
            show (reMatchEndF n p' s').map (· + 1) = (reMatchEndF m p' s').map (· + 1)
            rw [ih m p' s' (by omega) (by omega)]
        | anyStar =>
          cases s with
          | nil =>
            simp only [List.length_cons, List.length_nil] at hn hm
            show reMatchEndF n p' [] = reMatchEndF m p' []
            exact ih m p' [] (by simp; omega) (by simp; omega)
          | cons d s' =>
            simp only [List.length_cons] at hn hm
            show (match reMatchEndF n (.anyStar :: p') s' with
                  | some k => some (k + 1)
                  | none => reMatchEndF n p' (d :: s'))
              = (match reMatchEndF m (.anyStar :: p') s' with
                 | some k => some (k + 1)
                 | none => reMatchEndF m p' (d :: s'))
            rw [ih m (.anyStar :: p') s'
                (by simp only [List.length_cons]; omega)
                (by simp only [List.length_cons]; omega),
              ih m p' (d :: s')
                (by simp only [List.length_cons]; omega)
                (by simp only [List.length_cons]; omega)]

theorem reMatchEnd_lit_cons (c : Char) (p : List RTok) (d : Char) (s : List Char) :
    reMatchEnd (.lit c :: p) (d :: s)
      = if c = d then (reMatchEnd p s).map (· + 1) else none := by
  show (if c = d
        then (reMatchEndF ((RTok.lit c :: p).length + (d :: s).length) p s).map (· + 1)
        else none)
    = if c = d then (reMatchEnd p s).map (· + 1) else none
  rw [reMatchEndF_congr ((RTok.lit c :: p).length + (d :: s).length)
    (p.length + s.length + 1) p s
    (by simp only [List.length_cons]; omega) (by omega)]
  rfl

theorem reMatchEnd_one_cons (p : List RTok) (d : Char) (s : List Char) :
    reMatchEnd (.anyOne :: p) (d :: s) = (reMatchEnd p s).map (· + 1) := by
  show (reMatchEndF ((RTok.anyOne :: p).length + (d :: s).length) p s).map (· + 1)
    = (reMatchEnd p s).map (· + 1)
  rw [reMatchEndF_congr ((RTok.anyOne :: p).length + (d :: s).length)
    (p.length + s.length + 1) p s
    (by simp only [List.length_cons]; omega) (by omega)]
  rfl

theorem reMatchEnd_star_nil (p : List RTok) :
    reMatchEnd (.anyStar :: p) [] = reMatchEnd p [] := by
  show reMatchEndF ((RTok.anyStar :: p).length + ([] : List Char).length) p []
    = reMatchEnd p []
  rw [reMatchEndF_congr ((RTok.anyStar :: p).length + ([] : List Char).length)
    (p.length + ([] : List Char).length + 1) p []
    (by simp only [List.length_cons, List.length_nil]; omega)
    (by simp only [List.length_nil]; omega)]
  rfl

theorem reMatchEnd_star_cons (p : List RTok) (d : Char) (s : List Char) :
    reMatchEnd (.anyStar :: p) (d :: s)
      = match reMatchEnd (.anyStar :: p) s with
        | some n => some (n + 1)
        | none => reMatchEnd p (d :: s) := by
  show (match reMatchEndF ((RTok.anyStar :: p).length + (d :: s).length)
              (RTok.anyStar :: p) s with
        | some n => some (n + 1)
        | none => reMatchEndF ((RTok.anyStar :: p).length + (d :: s).length)
                    p (d :: s))
    = match reMatchEnd (.anyStar :: p) s with
      | some n => some (n + 1)
      | none => reMatchEnd p (d :: s)
  rw [reMatchEndF_congr ((RTok.anyStar :: p).length + (d :: s).length)
    ((RTok.anyStar :: p).length + s.length + 1) (RTok.anyStar :: p) s
    (by simp only [List.length_cons]; omega)
    (by simp only [List.length_cons]; omega),
    reMatchEndF_congr ((RTok.anyStar :: p).length + (d :: s).length)
    (p.length + (d :: s).length + 1) p (d :: s)
    (by simp only [List.length_cons]; omega)
    (by simp only [List.length_cons]; omega)]
  rfl

theorem reMatchEnd_sound : ∀ (k : Nat) (p : List RTok) (s : List Char) (n : Nat),
    p.length + s.length ≤ k → reMatchEnd p s = some n →
    n ≤ s.length ∧ fullMatch p (s.take n) = true := by
  intro k
  induction k with
  | zero =>
    intro p s n hb hm
    have hp : p = [] := by cases p <;> simp_all
    have hs : s = [] := by cases s <;> simp_all
    subst hp; subst hs
    have h0 : n = 0 := by
      have h1 : (some 0 : Option Nat) = some n := by rw [← hm]; rfl
      simpa using h1.symm
    subst h0
    exact ⟨Nat.le_refl 0, rfl⟩
  | succ k ih =>
    intro p s n hb hm
    cases p with
    | nil =>
      have hn : n = 0 := by
        have h1 : (some 0 : Option Nat) = some n := by
          rw [← hm]; rfl
        simpa using h1.symm
      subst hn
      exact ⟨Nat.zero_le _, by simp [fullMatch, fullMatchF]⟩
    | cons t p' =>
      cases t with
      | lit c =>
        cases s with
        | nil => exact absurd hm (by simp [reMatchEnd, reMatchEndF])
        | cons d s' =>
          rw [reMatchEnd_lit_cons] at hm
          by_cases hcd : c = d
          · rw [if_pos hcd] at hm
            obtain ⟨n', hn', rfl⟩ := Option.map_eq_some'.mp hm
            simp only [List.length_cons] at hb
            obtain ⟨h1, h2⟩ := ih p' s' n' (by omega) hn'
            refine ⟨by simpa using h1, ?_⟩
            rw [List.take_succ_cons, fullMatch_lit_cons]
            simp [hcd, h2]
          · rw [if_neg hcd] at hm; exact absurd hm (by simp)
      | anyOne =>
        cases s with
        | nil => exact absurd hm (by simp [reMatchEnd, reMatchEndF])
        | cons d s' =>
          rw [reMatchEnd_one_cons] at hm
          obtain ⟨n', hn', rfl⟩ := Option.map_eq_some'.mp hm
          simp only [List.length_cons] at hb
          obtain ⟨h1, h2⟩ := ih p' s' n' (by omega) hn'
          refine ⟨by simpa using h1, ?_⟩
          simpa [List.take_succ_cons, fullMatch_one_cons] using h2
      | anyStar =>
        cases s with
        | nil =>
          rw [reMatchEnd_star_nil] at hm
          simp only [List.length_cons] at hb
          obtain ⟨h1, h2⟩ := ih p' [] n (by omega) hm
          refine ⟨h1, ?_⟩
          have hn : n = 0 := by simpa using h1
          subst hn
          simpa [fullMatch_star_nil] using h2
        | cons d s' =>
          rw [reMatchEnd_star_cons] at hm
          simp only [List.length_cons] at hb
          cases h1 : reMatchEnd (.anyStar :: p') s' with
          | some n1 =>
            rw [h1] at hm
            have hn : n = n1 + 1 := by simpa using hm.symm
            subst hn
            obtain ⟨hle, hmt⟩ := ih (.anyStar :: p') s' n1 (by simp; omega) h1
            refine ⟨by simpa using hle, ?_⟩
            rw [List.take_succ_cons, fullMatch_star_cons, hmt, Bool.or_true]
          | none =>
            rw [h1] at hm
            obtain ⟨hle, hmt⟩ := ih p' (d :: s') n (by simp; omega) hm
            exact ⟨by simpa using hle, fullMatch_star_of _ _ hmt⟩

theorem reMatchEnd_complete : ∀ (k : Nat) (p : List RTok) (s : List Char),
    p.length + s.length ≤ k → reMatchEnd p s = none →
    ∀ n, n ≤ s.length → fullMatch p (s.take n) = false := by
  intro k
  induction k with
  | zero =>
    intro p s hb hm n hn
    have hp : p = [] := by cases p <;> simp_all
    subst hp
    exact absurd hm (by simp [reMatchEnd, reMatchEndF])
  | succ k ih =>
    intro p s hb hm n hn
    cases p with
    | nil => exact absurd hm (by simp [reMatchEnd, reMatchEndF])
    | cons t p' =>
      cases t with
      | lit c =>
        cases s with
        | nil =>
          have : n = 0 := by simpa using hn
          subst this
          simp [fullMatch, fullMatchF]
        | cons d s' =>
          rw [reMatchEnd_lit_cons] at hm
          cases n with
          | zero => simp [fullMatch, fullMatchF]
          | succ m =>
            simp only [List.take_succ_cons, fullMatch_lit_cons]
            by_cases hcd : c = d
            · rw [if_pos hcd] at hm
              simp only [List.length_cons] at hb
              have hrec : reMatchEnd p' s' = none := by
                cases hx : reMatchEnd p' s' with
                | none => rfl
                | some z => rw [hx] at hm; exact absurd hm (by simp)
              rw [ih p' s' (by omega) hrec m (by simpa using hn)]
              simp
            · simp [hcd]
      | anyOne =>
        cases s with
        | nil =>
          have : n = 0 := by simpa using hn
          subst this
          simp [fullMatch, fullMatchF]
        | cons d s' =>
          rw [reMatchEnd_one_cons] at hm
          cases n with
          | zero => simp [fullMatch, fullMatchF]
          | succ m =>
            have hrec : reMatchEnd p' s' = none := by
              cases hx : reMatchEnd p' s' with
              | none => rfl
              | some z => rw [hx] at hm; exact absurd hm (by simp)
            simp only [List.length_cons] at hb
            rw [List.take_succ_cons, fullMatch_one_cons]
            exact ih p' s' (by omega) hrec m (by simpa using hn)
      | anyStar =>
        cases s with
        | nil =>
          rw [reMatchEnd_star_nil] at hm
          have : n = 0 := by simpa using hn
          subst this
          simp only [List.take_nil, fullMatch_star_nil, List.length_cons] at *
          exact ih p' [] (by omega) hm 0 (by simp)
        | cons d s' =>
          rw [reMatchEnd_star_cons] at hm
          simp only [List.length_cons] at hb
          cases h1 : reMatchEnd (.anyStar :: p') s' with
          | some n1 => rw [h1] at hm; exact absurd hm (by simp)
          | none =>
            rw [h1] at hm
            have hp' : fullMatch p' ((d :: s').take n) = false :=
              ih p' (d :: s') (by simp; omega) hm n hn
            cases n with
            | zero =>
              simp only [List.take_zero] at hp' ⊢
              rw [fullMatch_star_nil]
              exact hp'
            | succ m =>
              simp only [List.take_succ_cons] at hp' ⊢
              rw [fullMatch_star_cons, hp', Bool.false_or]
              exact ih (.anyStar :: p') s' (by simp; omega) h1 m (by simpa using hn)

theorem sufMatchIdx_some_spec : ∀ (p : List RTok) (v : List Char) (i : Nat),
    sufMatchIdx p v = some i →
    i ≤ v.length ∧ fullMatch p (v.drop i) = true ∧
      ∀ j, j < i → fullMatch p (v.drop j) = false := by
  intro p v
  induction v with
  | nil =>
    intro i h
    unfold sufMatchIdx at h
    by_cases hf : fullMatch p [] = true
    · rw [if_pos hf] at h
      obtain rfl : i = 0 := by simpa using h.symm
      exact ⟨Nat.le_refl 0, hf, by omega⟩
    · rw [if_neg hf] at h
      exact absurd h (by simp)
  | cons c r ih =>
    intro i h
    unfold sufMatchIdx at h
    by_cases hf : fullMatch p (c :: r) = true
    · rw [if_pos hf] at h
      obtain rfl : i = 0 := by simpa using h.symm
      exact ⟨by simp, hf, by omega⟩
    · rw [if_neg hf] at h
      obtain ⟨i', hi', rfl⟩ := Option.map_eq_some'.mp h
      obtain ⟨h1, h2, h3⟩ := ih i' hi'
      refine ⟨by simpa using h1, by simpa using h2, ?_⟩
      intro j hj
      cases j with
      | zero => simpa using Bool.not_eq_true _ ▸ (by simpa using hf)
      | succ j' => simpa using h3 j' (by omega)

theorem sufMatchIdx_none_spec : ∀ (p : List RTok) (v : List Char),
    sufMatchIdx p v = none → ∀ j, fullMatch p (v.drop j) = false := by
  intro p v
  induction v with
  | nil =>
    intro h j
    unfold sufMatchIdx at h
    by_cases hf : fullMatch p [] = true
    · rw [if_pos hf] at h; exact absurd h (by simp)
    · simpa using hf
  | cons c r ih =>
    intro h j
    unfold sufMatchIdx at h
    by_cases hf : fullMatch p (c :: r) = true
    · rw [if_pos hf] at h; exact absurd h (by simp)
    · rw [if_neg hf] at h
      have hr : sufMatchIdx p r = none := by
        cases hx : sufMatchIdx p r with
        | none => rfl
        | some z => rw [hx] at h; exact absurd h (by simp)
      cases j with
      | zero => simpa using hf
      | succ j' => simpa using ih hr j'

/-- C3 counterexample: with V = "aXbXc" and pattern *X, the claim says
${V#*X} removes the shortest matching prefix "aX", yielding "bXc"; the
code's greedy regex removes "aXbX", yielding "c" (the prefix "aX" does
match the compiled glob, so a shorter matching prefix exists). -/
theorem hash_strips_greedy_not_shortest :
    (expandParameter patSt "V" .hash false (some (createWordString "*X"))).1 = "c" ∧
    fullMatch (glob2re "*X".data) "aX".data = true ∧
    ("c" : String) ≠ "bXc" :=
  ⟨rfl, by rfl, by decide⟩

/-- C3 amended: the code does not distinguish shortest from longest
match: # and ## (resp. % and %%) produce identical results.  For %/%%,
the removed suffix is the LONGEST suffix fully matching the compiled
glob (leftmost match of src$), the value being returned unchanged when
no suffix matches.  For #/##, the removed prefix is the greedy
(per-star-greedy backtracking) anchored match: when the match exists it
is a prefix that fully matches the compiled glob, and when no prefix
matches at all the value is returned unchanged. -/
theorem pattern_strip_amended :
    (∀ (st : EvalSt) (n : String) (c : Bool) (a : Option WordAst),
      expandParameter st n .hash c a = expandParameter st n .dhash c a) ∧
    (∀ (st : EvalSt) (n : String) (c : Bool) (a : Option WordAst),
      expandParameter st n .percent c a = expandParameter st n .dpercent c a) ∧
    (∀ (v pat : List Char),
      (∃ i, i ≤ v.length ∧ jsStripSuf v (glob2re pat) = v.take i ∧
        fullMatch (glob2re pat) (v.drop i) = true ∧
        ∀ j, j < i → fullMatch (glob2re pat) (v.drop j) = false) ∨
      (jsStripSuf v (glob2re pat) = v ∧
        ∀ j, fullMatch (glob2re pat) (v.drop j) = false)) ∧
    (∀ (v pat : List Char) (n : Nat), reMatchEnd (glob2re pat) v = some n →
      jsStripPre v (glob2re pat) = v.drop n ∧ n ≤ v.length ∧
      fullMatch (glob2re pat) (v.take n) = true) ∧
    (∀ (v pat : List Char), reMatchEnd (glob2re pat) v = none →
      jsStripPre v (glob2re pat) = v ∧
      ∀ n, n ≤ v.length → fullMatch (glob2re pat) (v.take n) = false) := by
  refine ⟨?_, ?_, ?_, ?_, ?_⟩
  · intro st n c a
    cases a <;> simp [expandParameter]
  · intro st n c a
    cases a <;> simp [expandParameter]
  · intro v pat
    cases h : sufMatchIdx (glob2re pat) v with
    | some i =>
      obtain ⟨h1, h2, h3⟩ := sufMatchIdx_some_spec _ _ _ h
      exact Or.inl ⟨i, h1, by simp [jsStripSuf, h], h2, h3⟩
    | none =>
      exact Or.inr ⟨by simp [jsStripSuf, h], sufMatchIdx_none_spec _ _ h⟩
  · intro v pat n h
    obtain ⟨h1, h2⟩ :=
      reMatchEnd_sound ((glob2re pat).length + v.length) _ _ _ (Nat.le_refl _) h
    exact ⟨by simp [jsStripPre, h], h1, h2⟩
  · intro v pat h
    exact ⟨by simp [jsStripPre, h],
      reMatchEnd_complete ((glob2re pat).length + v.length) _ _ (Nat.le_refl _) h⟩

theorem pattern_strip_amended_witness :
    expandParameter patSt "V" .hash false (some (createWordString "*X"))
      = expandParameter patSt "V" .dhash false (some (createWordString "*X")) ∧
    jsStripPre "aXbXc".data (glob2re "*X".data) = "aXbXc".data.drop 4 ∧
    fullMatch (glob2re "*X".data) ("aXbXc".data.take 4) = true :=
  ⟨pattern_strip_amended.1 patSt "V" false (some (createWordString "*X")),
   (pattern_strip_amended.2.2.2.1 "aXbXc".data "*X".data 4 (by rfl)).1,
   (pattern_strip_amended.2.2.2.1 "aXbXc".data "*X".data 4 (by rfl)).2.2⟩

theorem cmdsub_no_program_expands_empty_witness :
    (parseParameterFromString "$(echo hi)".data 0).1 = WordAst.cmdSub none false ∧
    (parseBackquoteFromString "`echo hi`".data 0).1 = WordAst.cmdSub none true ∧
    expandWordF 1 (.cmdSub none false) baseSt = some ("", baseSt) :=
  ⟨cmdsub_no_program_expands_empty.1 "$(echo hi)".data 0 rfl (by decide),
   cmdsub_no_program_expands_empty.2.1 "`echo hi`".data 0,
   cmdsub_no_program_expands_empty.2.2 0 baseSt false⟩

/-! ## C8: lexer invariants

Position bookkeeping of the advance() loops: advancing never changes the
input, each advance bumps pos by one, and every scanning loop consumes at
most the characters it can see (plus, for the readParameter tail, the one
overshooting advance past the end). -/

theorem adv1_input (st : LexSt) : (adv1 st).input = st.input := by
  unfold adv1
  split <;> rfl

theorem adv1_pos (st : LexSt) : (adv1 st).pos = st.pos + 1 := by
  unfold adv1
  split <;> rfl

theorem advN_input : ∀ (k : Nat) (st : LexSt), (advN st k).input = st.input := by
  intro k
  induction k with
  | zero => intro st; rfl
  | succ k ih =>
    intro st
    show (advN (adv1 st) k).input = st.input
    rw [ih, adv1_input]

theorem advN_pos : ∀ (k : Nat) (st : LexSt), (advN st k).pos = st.pos + k := by
  intro k
  induction k with
  | zero => intro st; simp [advN]
  | succ k ih =>
    intro st
    show (advN (adv1 st) k).pos = st.pos + (k + 1)
    rw [ih, adv1_pos]
    omega

theorem remIn_advN (st : LexSt) (k : Nat) : remIn (advN st k) = (remIn st).drop k := by
  unfold remIn
  rw [advN_input, advN_pos, List.drop_drop, Nat.add_comm]

theorem remIn_len (st : LexSt) : (remIn st).length = st.input.length - st.pos := by
  simp [remIn]

theorem skipWsN_le : ∀ l : List Char, skipWsN l ≤ l.length := by
  intro l
  induction l using skipWsN.induct <;> simp_all [skipWsN] <;> omega

theorem skipWsN_fix : ∀ l : List Char, skipWsN (l.drop (skipWsN l)) = 0 := by
  intro l
  induction l using skipWsN.induct with
  | case1 r ih =>
    rw [show skipWsN (' ' :: r) = skipWsN r + 1 by simp [skipWsN]; omega,
      List.drop_succ_cons]
    exact ih
  | case2 r ih =>
    rw [show skipWsN ('\t' :: r) = skipWsN r + 1 by simp [skipWsN]; omega,
      List.drop_succ_cons]
    exact ih
  | case3 r ih =>
    rw [show skipWsN ('\\' :: '\n' :: r) = skipWsN r + 1 + 1 by simp [skipWsN]; omega,
      List.drop_succ_cons, List.drop_succ_cons]
    exact ih
  | case4 l h1 h2 h3 =>
    have h0 : skipWsN l = 0 := by
      rw [skipWsN.eq_def]
      split
      · exact absurd rfl (fun h => h1 _ h)
      · exact absurd rfl (fun h => h2 _ h)
      · exact absurd rfl (fun h => h3 _ h)
      · rfl
    simp [h0]

theorem skipWsN_head (c : Char) (r : List Char) (h : skipWsN (c :: r) = 0) :
    c ≠ ' ' ∧ c ≠ '\t' := by
  constructor <;> rintro rfl <;> simp [skipWsN] at h <;> omega

theorem commentTailN_le : ∀ l : List Char, skipCommentN.commentTailN l ≤ l.length := by
  intro l
  induction l using skipCommentN.commentTailN.induct <;>
    simp_all [skipCommentN.commentTailN] <;> omega

theorem skipCommentN_le (l : List Char) : skipCommentN l ≤ l.length := by
  rw [skipCommentN.eq_def]
  split
  · rename_i r
    have := commentTailN_le r
    simp only [List.length_cons]
    omega
  · exact Nat.zero_le _

theorem rsqN_le : ∀ l : List Char, (rsqN l).2 ≤ l.length := by
  intro l
  induction l using rsqN.induct <;> simp_all [rsqN] <;> omega

theorem rdqN_le : ∀ l : List Char, (rdqN l).2 ≤ l.length := by
  intro l
  induction l using rdqN.induct <;> simp_all [rdqN] <;> omega

theorem lexArithN_le : ∀ (d : Nat) (l : List Char), (lexArithN d l).2 ≤ l.length := by
  intro d l
  induction d, l using lexArithN.induct <;> simp_all [lexArithN] <;> omega

theorem lexNameN_le : ∀ l : List Char, (lexNameN l).2 ≤ l.length := by
  intro l
  induction l using lexNameN.induct <;> simp_all [lexNameN] <;> omega

theorem lexBraceN_le : ∀ l : List Char, (lexBraceN l).2 ≤ l.length := by
  intro l
  induction l using lexBraceN.induct <;> simp_all [lexBraceN] <;> omega

theorem bqTailN_le : ∀ l : List Char, (bqTailN l).2 ≤ l.length := by
  intro l
  induction l using bqTailN.induct <;> simp_all [bqTailN] <;> omega

theorem lexCsubN_le : ∀ (fuel d : Nat) (l : List Char), (lexCsubN fuel d l).2 ≤ l.length := by
  intro fuel d l
  induction fuel, d, l using lexCsubN.induct with
  | case1 d l => rw [lexCsubN.eq_def]; simp
  | case2 l fuel => rw [lexCsubN.eq_def]; simp
  | case3 d fuel hd => rw [lexCsubN.eq_def]; simp [hd]
  | case4 d fuel hd r v1 n1 hA v2 n2 hB ih =>
    have b1 := rsqN_le r
    rw [hA] at b1
    rw [lexCsubN.eq_def]
    simp_all [List.length_drop]
    omega
  | case5 d fuel hd r v1 n1 hA v2 n2 hB hq ih =>
    have b1 := rdqN_le r
    rw [hA] at b1
    rw [lexCsubN.eq_def]
    simp_all [List.length_drop]
    omega
  | case6 d fuel hd c r hne1 hne2 v n hC ih =>
    rw [lexCsubN.eq_def]
    simp_all

theorem lexParamTailN_le (l : List Char) : (lexParamTailN l).2 ≤ l.length + 1 := by
  rw [lexParamTailN.eq_def]
  split
  · simp
  · rename_i r
    split
    · rename_i r2
      cases hA : lexArithN 2 r2 with
      | mk v n =>
        have := lexArithN_le 2 r2
        rw [hA] at this
        simp only [List.length_cons]
        omega
    · cases hA : lexCsubN (r.length + 1) 1 r with
      | mk v n =>
        have := lexCsubN_le (r.length + 1) 1 r
        rw [hA] at this
        simp only [List.length_cons]
        omega
  · rename_i r
    cases hA : lexBraceN r with
    | mk v n =>
      have := lexBraceN_le r
      rw [hA] at this
      simp only [List.length_cons]
      omega
  · rename_i c r hp hb
    by_cases hs : specialChars.contains c
    · rw [if_pos hs]
      simp
    · rw [if_neg hs]
      have := lexNameN_le (c :: r)
      omega

theorem readWordN_nil : ∀ fuel : Nat, readWordN fuel [] = ([], 0) := by
  intro fuel
  cases fuel <;> rfl

theorem readWordN_le : ∀ (fuel : Nat) (l : List Char), (readWordN fuel l).2 ≤ l.length + 1 := by
  intro fuel l
  induction fuel, l using readWordN.induct with
  | case1 l => rw [readWordN.eq_def]; simp
  | case2 k => rw [readWordN.eq_def]; simp
  | case3 k r p1 ih =>
    have hp : p1 = rsqN r := rfl
    rw [hp] at ih
    have b1 := rsqN_le r
    rw [readWordN.eq_def]
    simp_all [List.length_drop]
    omega
  | case4 k r p1 hq ih =>
    have hp : p1 = rdqN r := rfl
    rw [hp] at ih
    have b1 := rdqN_le r
    rw [readWordN.eq_def]
    simp_all [List.length_drop]
    omega
  | case5 k h1 h2 =>
    rw [readWordN.eq_def]
    simp_all
  | case6 k tail h1 h2 ih =>
    rw [readWordN.eq_def]
    simp_all
  | case7 k hd r hhd h1 h2 ih =>
    rw [readWordN.eq_def]
    simp_all
  | case8 k r p1 h1 h2 h3 ih =>
    have hp : p1 = lexParamTailN r := rfl
    rw [hp] at ih
    have b1 := lexParamTailN_le r
    by_cases hover : (lexParamTailN r).2 ≤ r.length
    · rw [readWordN.eq_def]
      simp_all [List.length_drop]
      omega
    · have hnil : r.drop (lexParamTailN r).2 = [] := List.drop_eq_nil_of_le (by omega)
      have h0 : (readWordN k (r.drop (lexParamTailN r).2)).2 = 0 := by
        rw [hnil, readWordN_nil]
      rw [readWordN.eq_def]
      simp_all
      omega
  | case9 k r p1 h1 h2 h3 h4 ih =>
    have hp : p1 = bqTailN r := rfl
    rw [hp] at ih
    have b1 := bqTailN_le r
    rw [readWordN.eq_def]
    simp_all [List.length_drop]
    omega
  | case10 k c r h1 h2 h3 h4 h5 hm =>
    rw [readWordN.eq_def]
    simp_all
  | case11 k c r h1 h2 h3 h4 h5 hm ih =>
    rw [readWordN.eq_def]
    simp_all

/-- Word-loop progress: when the head character is not a metacharacter,
or is one of the five the loop dispatches on (quote, double quote,
backslash, dollar, backquote), the loop performs at least one advance. -/
theorem readWordN_pos : ∀ (fuel : Nat) (l : List Char),
    fuel ≠ 0 → l ≠ [] →
    (∀ c, l.head? = some c → isMeta c = true →
      c ∈ (['$', '`', '\\', '"', '\''] : List Char)) →
    1 ≤ (readWordN fuel l).2 := by
  intro fuel l
  induction fuel, l using readWordN.induct with
  | case1 l => intro h _ _; exact absurd rfl h
  | case2 k => intro _ h _; exact absurd rfl h
  | case3 k r p1 ih =>
    intro _ _ _
    rw [readWordN.eq_def]
    simp_all
    omega
  | case4 k r p1 hq ih =>
    intro _ _ _
    rw [readWordN.eq_def]
    simp_all
    omega
  | case5 k h1 h2 =>
    intro _ _ _
    rw [readWordN.eq_def]
    simp_all
  | case6 k tail h1 h2 ih =>
    intro _ _ _
    rw [readWordN.eq_def]
    simp_all
  | case7 k hd r hhd h1 h2 ih =>
    intro _ _ _
    rw [readWordN.eq_def]
    simp_all
  | case8 k r p1 h1 h2 h3 ih =>
    intro _ _ _
    rw [readWordN.eq_def]
    simp_all
    omega
  | case9 k r p1 h1 h2 h3 h4 ih =>
    intro _ _ _
    rw [readWordN.eq_def]
    simp_all
    omega
  | case10 k c r h1 h2 h3 h4 h5 hm =>
    intro _ _ hp
    have hdisp := hp c rfl hm
    simp_all
  | case11 k c r h1 h2 h3 h4 h5 hm ih =>
    intro _ _ _
    rw [readWordN.eq_def]
    simp_all

theorem readWordW_le (l : List Char) : (readWordW l).2 ≤ l.length + 1 :=
  readWordN_le (l.length + 1) l

theorem readWordW_pos (c : Char) (r : List Char)
    (h : isMeta c = true → c ∈ (['$', '`', '\\', '"', '\''] : List Char)) :
    1 ≤ (readWordW (c :: r)).2 := by
  apply readWordN_pos
  · simp
  · simp
  · intro d hd
    simp only [List.head?_cons, Option.some.injEq] at hd
    subst hd
    exact h

theorem opFind_some_spec (l op : List Char) (h : opFind l = some op) :
    op ∈ OPERATORS ∧ l.take op.length = op ∧ 1 ≤ op.length ∧ op.length ≤ l.length := by
  have hmem := List.mem_of_find?_eq_some h
  have hp := List.find?_some h
  have htake : l.take op.length = op := by
    simpa [opMatches] using hp
  refine ⟨hmem, htake, ?_, ?_⟩
  · have hne : ∀ o ∈ OPERATORS, 1 ≤ o.length := by decide
    exact hne op hmem
  · have hlen := congrArg List.length htake
    rw [List.length_take] at hlen
    omega

theorem opMatches_single (c : Char) (r : List Char) : opMatches (c :: r) [c] = true := by
  unfold opMatches
  rw [show (c :: r).take ([c] : List Char).length = [c] from rfl]
  simp

theorem opFind_none_head (c : Char) (r : List Char) (h : opFind (c :: r) = none) :
    ∀ d ∈ (['|', '&', ';', '<', '>', '(', ')', '{', '}', '\n'] : List Char), c ≠ d := by
  intro d hd
  rintro rfl
  have hnone := List.find?_eq_none.mp h
  fin_cases hd <;> exact absurd (opMatches_single _ r) (hnone _ (by decide))

/-- A post-skip head character that is neither blank nor the start of an
operator is, when a metacharacter at all, one of the five characters the
word loop dispatches on. -/
theorem head_dispatch (c : Char) (h1 : c ≠ ' ') (h2 : c ≠ '\t')
    (h3 : ∀ d ∈ (['|', '&', ';', '<', '>', '(', ')', '{', '}', '\n'] : List Char), c ≠ d) :
    isMeta c = true → c ∈ (['$', '`', '\\', '"', '\''] : List Char) := by
  intro hm
  simp only [isMeta, List.mem_cons, List.not_mem_nil, or_false, decide_eq_true_eq] at hm
  rcases hm with rfl | rfl | rfl | rfl | rfl | rfl | rfl | rfl | rfl | rfl | rfl | rfl | rfl | rfl | rfl <;>
    first
      | exact absurd rfl h1
      | exact absurd rfl h2
      | exact absurd rfl (h3 _ (by decide))
      | decide

/-- The shared operator-or-word tail of both ntCore branches: it always
produces a non-EOF token carrying the pre-dispatch position, and
advances at least one and at most remaining-plus-one characters. -/
theorem armOW_spec (st : LexSt) (c : Char) (r : List Char)
    (hsp : c ≠ ' ') (hta : c ≠ '\t') :
    ∃ ty v n,
      (match opFind (c :: r) with
       | some op =>
         if op = ['\n'] then ((⟨TokType.newline, "\n", curPos st⟩ : Token), advN st op.length)
         else ((⟨TokType.op, String.mk op, curPos st⟩ : Token), advN st op.length)
       | none =>
         let p := readWordW (c :: r)
         ((⟨TokType.word, String.mk p.1, curPos st⟩ : Token), advN st p.2))
        = ((⟨ty, v, curPos st⟩ : Token), advN st n) ∧
      ty ≠ TokType.eof ∧ 1 ≤ n ∧ n ≤ (c :: r).length + 1 := by
  cases hop : opFind (c :: r) with
  | some op =>
    obtain ⟨hmem, htake, h1, h2⟩ := opFind_some_spec (c :: r) op hop
    by_cases hnl : op = ['\n']
    · refine ⟨TokType.newline, "\n", op.length, ?_, by decide, h1, by omega⟩
      simp only [hop]
      rw [if_pos hnl]
    · refine ⟨TokType.op, String.mk op, op.length, ?_, by decide, h1, by omega⟩
      simp only [hop]
      rw [if_neg hnl]
  | none =>
    have hd := head_dispatch c hsp hta (opFind_none_head c r hop)
    have hp := readWordW_pos c r hd
    have hb := readWordW_le (c :: r)
    refine ⟨TokType.word, String.mk (readWordW (c :: r)).1, (readWordW (c :: r)).2,
      ?_, by decide, hp, hb⟩
    simp only [hop]

/-- nextToken dispatch invariants: the produced token carries the
current position as offset, the state advances without changing the
input, stays within length-plus-one, and a non-EOF token means the
position was inside the input and strictly advances. -/
theorem ntCore_spec (st : LexSt) (hpos : st.pos ≤ st.input.length + 1)
    (hfix : skipWsN (remIn st) = 0) :
    (ntCore st).2.input = st.input ∧
    (ntCore st).1.position.offset = st.pos ∧
    st.pos ≤ (ntCore st).2.pos ∧
    (ntCore st).2.pos ≤ st.input.length + 1 ∧
    ((ntCore st).1.type = TokType.eof ∨
      ((ntCore st).1.type ≠ TokType.eof ∧ st.pos < st.input.length ∧
        st.pos < (ntCore st).2.pos)) := by
  have key : ∃ ty v n, ntCore st = ((⟨ty, v, curPos st⟩ : Token), advN st n) ∧
      (ty = TokType.eof ∨
        (ty ≠ TokType.eof ∧ st.pos < st.input.length ∧ 1 ≤ n ∧
          n ≤ (remIn st).length + 1)) ∧
      (ty = TokType.eof → n = 0) := by
    by_cases hle : st.input.length ≤ st.pos
    · refine ⟨TokType.eof, "", 0, ?_, Or.inl rfl, fun _ => rfl⟩
      unfold ntCore
      rw [if_pos hle]
      rfl
    · push_neg at hle
      rcases hrem : remIn st with _ | ⟨c, r⟩
      · exfalso
        have hrl := remIn_len st
        rw [hrem] at hrl
        simp at hrl
        omega
      · rw [hrem] at hfix
        obtain ⟨hsp, hta⟩ := skipWsN_head c r hfix
        cases r with
        | nil =>
          have hred : ntCore st =
              (match opFind (c :: ([] : List Char)) with
               | some op =>
                 if op = ['\n'] then
                   ((⟨TokType.newline, "\n", curPos st⟩ : Token), advN st op.length)
                 else ((⟨TokType.op, String.mk op, curPos st⟩ : Token), advN st op.length)
               | none =>
                 let p := readWordW (c :: ([] : List Char))
                 ((⟨TokType.word, String.mk p.1, curPos st⟩ : Token), advN st p.2)) := by
            unfold ntCore
            rw [if_neg (by omega), hrem]
          obtain ⟨ty, v, n, he, hne, h1, h2⟩ := armOW_spec st c [] hsp hta
          refine ⟨ty, v, n, ?_, Or.inr ⟨hne, by omega, h1, h2⟩,
            fun h => absurd h hne⟩
          rw [hred]
          exact he
        | cons next rest =>
          have hred : ntCore st =
              (if (('0' ≤ c ∧ c ≤ '9') ∧ (next = '<' ∨ next = '>')) then
                ((⟨TokType.ioNumber, String.mk [c], curPos st⟩ : Token), advN st 1)
              else
                match opFind (c :: next :: rest) with
                | some op =>
                  if op = ['\n'] then
                    ((⟨TokType.newline, "\n", curPos st⟩ : Token), advN st op.length)
                  else ((⟨TokType.op, String.mk op, curPos st⟩ : Token), advN st op.length)
                | none =>
                  let p := readWordW (c :: next :: rest)
                  ((⟨TokType.word, String.mk p.1, curPos st⟩ : Token), advN st p.2)) := by
            unfold ntCore
            rw [if_neg (by omega), hrem]
          by_cases hio : (('0' ≤ c ∧ c ≤ '9') ∧ (next = '<' ∨ next = '>'))
          · refine ⟨TokType.ioNumber, String.mk [c], 1, ?_,
              Or.inr ⟨by decide, by omega, le_refl 1, by simp⟩,
              fun h => absurd h (by decide)⟩
            rw [hred, if_pos hio]
          · obtain ⟨ty, v, n, he, hne, h1, h2⟩ := armOW_spec st c (next :: rest) hsp hta
            refine ⟨ty, v, n, ?_, Or.inr ⟨hne, by omega, h1, h2⟩,
              fun h => absurd h hne⟩
            rw [hred, if_neg hio]
            exact he
  obtain ⟨ty, v, n, he, hdisj, heof⟩ := key
  rw [he]
  refine ⟨?_, rfl, ?_, ?_, ?_⟩
  · show (advN st n).input = st.input
    exact advN_input n st
  · show st.pos ≤ (advN st n).pos
    rw [advN_pos]
    omega
  · show (advN st n).pos ≤ st.input.length + 1
    rw [advN_pos]
    rcases hdisj with h | ⟨_, _, _, h2⟩
    · have := heof h
      omega
    · have := remIn_len st
      omega
  · rcases hdisj with h | ⟨hne, hlt, h1, h2⟩
    · exact Or.inl h
    · refine Or.inr ⟨hne, hlt, ?_⟩
      show st.pos < (advN st n).pos
      rw [advN_pos]
      omega

/-- Lexer.nextToken() invariants, relative to the state before the
whitespace and comment skipping. -/
theorem nextToken_spec (st0 : LexSt) (h : st0.pos ≤ st0.input.length + 1) :
    (nextToken st0).2.input = st0.input ∧
    st0.pos ≤ (nextToken st0).1.position.offset ∧
    (nextToken st0).1.position.offset ≤ (nextToken st0).2.pos ∧
    (nextToken st0).2.pos ≤ st0.input.length + 1 ∧
    ((nextToken st0).1.type = TokType.eof ∨
      ((nextToken st0).1.type ≠ TokType.eof ∧
        (nextToken st0).1.position.offset < st0.input.length ∧
        st0.pos < (nextToken st0).2.pos)) := by
  have hq : ∀ stq : LexSt, stq.input = st0.input → st0.pos ≤ stq.pos →
      stq.pos ≤ st0.input.length + 1 → skipWsN (remIn stq) = 0 →
      ((ntCore stq).2.input = st0.input ∧
       st0.pos ≤ (ntCore stq).1.position.offset ∧
       (ntCore stq).1.position.offset ≤ (ntCore stq).2.pos ∧
       (ntCore stq).2.pos ≤ st0.input.length + 1 ∧
       ((ntCore stq).1.type = TokType.eof ∨
         ((ntCore stq).1.type ≠ TokType.eof ∧
           (ntCore stq).1.position.offset < st0.input.length ∧
           st0.pos < (ntCore stq).2.pos))) := by
    intro stq hin hge hle hfx
    obtain ⟨a1, a2, a3, a4, a5⟩ := ntCore_spec stq (by rw [hin]; exact hle) hfx
    refine ⟨by rw [a1, hin], by rw [a2]; exact hge, by rw [a2]; exact a3,
      by rw [hin] at a4; exact a4, ?_⟩
    rcases a5 with h5 | ⟨hne, hlt, hpr⟩
    · exact Or.inl h5
    · refine Or.inr ⟨hne, ?_, lt_of_le_of_lt hge hpr⟩
      rw [a2, ← hin]
      exact hlt
  have e : nextToken st0 = ntCore (advN (advN (advN st0 (skipWsN (remIn st0)))
      (skipCommentN (remIn (advN st0 (skipWsN (remIn st0))))))
      (skipWsN (remIn (advN (advN st0 (skipWsN (remIn st0)))
        (skipCommentN (remIn (advN st0 (skipWsN (remIn st0))))))))) := rfl
  rw [e]
  apply hq
  · simp [advN_input]
  · simp only [advN_pos]
    omega
  · have b1 := skipWsN_le (remIn st0)
    have b2 := skipCommentN_le (remIn (advN st0 (skipWsN (remIn st0))))
    have b3 := skipWsN_le (remIn (advN (advN st0 (skipWsN (remIn st0)))
        (skipCommentN (remIn (advN st0 (skipWsN (remIn st0)))))))
    rw [remIn_len] at b1 b2 b3
    simp only [advN_pos, advN_input] at b2 b3 ⊢
    omega
  · rw [remIn_advN]
    exact skipWsN_fix _

/-- Lexer.tokenize() invariants by induction on the remaining fuel:
input-length + 2 - pos steps always suffice, the collected list ends in
the EOF token, every offset lies between the starting position and
input-length + 1, non-EOF offsets lie strictly inside the input, and
offsets are non-decreasing. -/
theorem tokenizeF_ok : ∀ (fuel : Nat) (st : LexSt),
    st.pos ≤ st.input.length + 1 → st.input.length + 2 ≤ fuel + st.pos →
    ∃ ts, tokenizeF fuel st = some ts ∧
      (∀ t ∈ ts, st.pos ≤ t.position.offset ∧
        t.position.offset ≤ st.input.length + 1 ∧
        (t.type ≠ TokType.eof → t.position.offset < st.input.length)) ∧
      (∃ tl, ts.getLast? = some tl ∧ tl.type = TokType.eof) ∧
      List.Chain' (fun a b => a.position.offset ≤ b.position.offset) ts := by
  intro fuel
  induction fuel with
  | zero =>
    intro st h1 h2
    omega
  | succ fuel ih =>
    intro st h1 h2
    obtain ⟨g1, g2, g3, g4, g5⟩ := nextToken_spec st h1
    cases hnx : nextToken st with
    | mk t st' =>
      simp only [hnx] at g1 g2 g3 g4 g5
      by_cases heof : t.type = TokType.eof
      · refine ⟨[t], ?_, ?_, ⟨t, rfl, heof⟩, ?_⟩
        · show tokenizeF (fuel + 1) st = some [t]
          simp only [tokenizeF, hnx]
          rw [if_pos heof]
        · intro u hu
          rw [List.mem_singleton] at hu
          subst hu
          exact ⟨g2, le_trans g3 g4, fun hne => absurd heof hne⟩
        · simp
      · rcases g5 with h5 | ⟨hne, hofflt, hprog⟩
        · exact absurd h5 heof
        · obtain ⟨ts', e', hall', hlast', hch'⟩ := ih st'
            (by rw [g1]; exact g4) (by rw [g1]; omega)
          refine ⟨t :: ts', ?_, ?_, ?_, ?_⟩
          · show tokenizeF (fuel + 1) st = some (t :: ts')
            simp only [tokenizeF, hnx]
            rw [if_neg heof, e']
          · intro u hu
            rcases List.mem_cons.mp hu with rfl | hu'
            · exact ⟨g2, le_trans g3 g4, fun _ => hofflt⟩
            · obtain ⟨c1, c2, c3⟩ := hall' u hu'
              rw [g1] at c2 c3
              exact ⟨by omega, c2, c3⟩
          · obtain ⟨tl, hl, hty⟩ := hlast'
            refine ⟨tl, ?_, hty⟩
            cases ts' with
            | nil => simp at hl
            | cons a l =>
              rw [List.getLast?_cons_cons]
              exact hl
          · refine List.chain'_cons'.mpr ⟨?_, hch'⟩
            intro y hy
            have hym : y ∈ ts' := List.mem_of_mem_head? hy
            obtain ⟨c1, _, _⟩ := hall' y hym
            exact le_trans g3 c1

/-- C8 counterexample: tokenizing the one-character input consisting of
a bare dollar sign yields a word token at offset 0 and an EOF token at
offset 2, which exceeds the input length 1: in readParameter the test
special.includes(peek()) is evaluated with peek() = '' at the end of
the input, String.includes('') is true, and the lexer advances past the
end, so the claim that no offset exceeds the length of s is false. -/
theorem lexer_offset_exceeds_length :
    ∃ ts, tokenizeJS "$" = some ts ∧
      ts.map (fun t => t.position.offset) = [0, 2] ∧
      ("$" : String).length = 1 ∧ ¬(2 ≤ ("$" : String).length) :=
  ⟨_, rfl, rfl, rfl, by decide⟩

/-- C8 amended: for every input string s tokenization terminates with a
token list ending in an EOF token, every offset is at most length s + 1
(the EOF offset can exceed the length by one, via the readParameter
overshoot on a trailing dollar sign), every non-EOF token offset is
strictly below length s, and offsets are non-decreasing along the
list. -/
theorem lexer_tokenize_amended (s : String) :
    ∃ ts, tokenizeJS s = some ts ∧
      (∃ tl, ts.getLast? = some tl ∧ tl.type = TokType.eof) ∧
      (∀ t ∈ ts, t.position.offset ≤ s.length + 1) ∧
      (∀ t ∈ ts, t.type ≠ TokType.eof → t.position.offset < s.length) ∧
      List.Chain' (fun a b => a.position.offset ≤ b.position.offset) ts := by
  obtain ⟨ts, e, hall, hlast, hch⟩ :=
    tokenizeF_ok (s.data.length + 2) (lexInit s) (by simp [lexInit]) (by simp [lexInit])
  refine ⟨ts, e, hlast, ?_, ?_, hch⟩
  · intro t ht
    exact (hall t ht).2.1
  · intro t ht hne
    exact (hall t ht).2.2 hne

theorem lexer_tokenize_amended_witness :
    ∃ ts, tokenizeJS "a b" = some ts ∧
      (∃ tl, ts.getLast? = some tl ∧ tl.type = TokType.eof) ∧
      (∀ t ∈ ts, t.position.offset ≤ ("a b" : String).length + 1) ∧
      (∀ t ∈ ts, t.type ≠ TokType.eof → t.position.offset < ("a b" : String).length) ∧
      List.Chain' (fun a b => a.position.offset ≤ b.position.offset) ts :=
  lexer_tokenize_amended "a b"

end VSh
